import Mathlib

/-!
Verification of the `misconceptions` repository.

The development shallowly embeds the two algorithmic subsystems of the
repository:

* the deterministic rotation scheduler of `src/shared/daily-selection.ts`
  (`createSeededRandom`, `getShuffledIndices`, `getDailyIndex`,
  `getDateRangeIndices`), and
* the extraction pipeline of `src/cli/index.ts` (`extractLatex`,
  `cleanHtmlText`, `extractMisconceptions`, `generateId`, and the
  deduplicating merge of the `pull` command).

Modelling conventions:

* JavaScript numbers are embedded as `Nat`/`Int` with explicit `% 2^w`
  where the source relies on 32-bit wrap-around (`>>> 0`); the
  floating-point representation of intermediate products is idealised as
  exact integer arithmetic.
* A calendar date is embedded as its (possibly negative) whole number of
  days since the 2024-01-01 epoch; `date.setDate(date.getDate() + k)`
  becomes integer addition of `k` days.
* JavaScript strings are embedded as `List Char` (for ASCII data the two
  agree position by position).  The regular-expression `replace` calls of
  the source are embedded as explicit scanners that reproduce the
  left-to-right, leftmost-match, lazy/greedy semantics of each concrete
  pattern.
* Fallible operations (array indexing that can be out of bounds) return
  `Option`.
-/

/-! ### Rotation scheduler (`src/shared/daily-selection.ts`) -/

/-- One step of the seeded linear congruential generator of
`createSeededRandom`: `state = ((state * 1103515245 + 12345) >>> 0) % 2147483648`.
`>>> 0` is ToUint32, i.e. reduction modulo `2^32`; the subsequent `%` acts on a
non-negative number, so it is Euclidean reduction modulo `2^31`. -/
def lcgNext (state : Int) : Nat :=
  (((state * 1103515245 + 12345) % 4294967296) % 2147483648).toNat

/-- Swap the entries at positions `i` and `j` of a list
(`[indices[i], indices[j]] = [indices[j], indices[i]]`); out-of-range
positions leave the list unchanged (they never occur in the source's loop). -/
def listSwap (l : List Nat) (i j : Nat) : List Nat :=
  match l.get? i, l.get? j with
  | some a, some b => (l.set i b).set j a
  | _, _ => l

/-- The Fisher–Yates loop of `getShuffledIndices`:
`for (let i = indices.length - 1; i > 0; i--)` with
`j = Math.floor(random() * (i + 1))`, where `random()` advances the LCG
state and returns `state / 2147483648`.  The loop counter is the last
argument; `random() * (i + 1)` floored is `state * (i + 1) / 2^31` in exact
arithmetic. -/
def fyLoop : List Nat → Int → Nat → List Nat
  | l, _, 0 => l
  | l, state, i + 1 =>
    let s' := lcgNext state
    let j := (s' * (i + 2)) / 2147483648
    fyLoop (listSwap l (i + 1) j) (s' : Int) i

/-- `getShuffledIndices(total, seed)`: a deterministically shuffled copy of
`[0, 1, ..., total-1]` via the seeded Fisher–Yates shuffle. -/
def getShuffledIndices (total : Nat) (seed : Int) : List Nat :=
  fyLoop (List.range total) seed (total - 1)

/-- `getDailyIndex(date, total)`.  The date is embedded as its whole number
of days since the 2024-01-01 epoch.  `Math.floor(d / total)` is `Int.fdiv`,
the JavaScript `%` is the truncating `Int.tmod`, and the final array lookup
`shuffled[positionInCycle]` is the fallible `List.get?` (it returns `none`
exactly when the source would produce `undefined`, e.g. for `total = 0`). -/
def getDailyIndex (daysSinceEpoch : Int) (total : Nat) : Option Nat :=
  let cycleNumber := daysSinceEpoch.fdiv total
  let positionInCycle := ((daysSinceEpoch.tmod total + total).tmod total).toNat
  (getShuffledIndices total cycleNumber).get? positionInCycle

/-- `getDateRangeIndices(startDate, days, total)`: step forward (positive
`days`) or backward (negative `days`) one day at a time, then reverse the
backward results so that output is chronological. -/
def getDateRangeIndices (startDate : Int) (days : Int) (total : Nat) :
    List (Int × Option Nat) :=
  let count := days.natAbs
  let step : Int := if days ≥ 0 then 1 else -1
  let results := (List.range count).map fun (i : Nat) =>
    let d := startDate + i * step
    (d, getDailyIndex d total)
  if days < 0 then results.reverse else results

/-! ### Scheduler lemmas -/

theorem lcgNext_lt (state : Int) : lcgNext state < 2147483648 := by
  have h1 : (0 : Int) < 2147483648 := by decide
  have h2 := Int.emod_lt_of_pos ((state * 1103515245 + 12345) % 4294967296) h1
  unfold lcgNext
  omega

theorem length_listSwap (l : List Nat) (i j : Nat) :
    (listSwap l i j).length = l.length := by
  unfold listSwap
  cases h1 : l.get? i <;> cases h2 : l.get? j <;> simp

/-- Setting positions `i < j` of a list to each other's elements is a
permutation. -/
theorem set_set_perm (a b : Nat) : ∀ (l : List Nat) (i j : Nat), i < j →
    l.get? i = some a → l.get? j = some b → ((l.set i b).set j a).Perm l := by
  intro l
  induction l with
  | nil => intro i j _ h1 _; simp [List.get?] at h1
  | cons x xs ih =>
    intro i j hij h1 h2
    cases j with
    | zero => exact absurd hij (Nat.not_lt_zero _)
    | succ k =>
      cases i with
      | zero =>
        have hx : x = a := by simpa [List.get?] using h1
        have hk : xs.get? k = some b := by simpa [List.get?] using h2
        have hklen : k < xs.length := by
          by_contra h
          rw [List.get?_eq_none.2 (Nat.le_of_not_lt h)] at hk
          exact Option.noConfusion hk
        have hkb : xs[k] = b := by
          rw [List.get?_eq_getElem?, List.getElem?_eq_getElem hklen] at hk
          exact Option.some.inj hk
        rw [hx]
        show (b :: xs.set k a).Perm (a :: xs)
        have hdecomp : xs.set k a = xs.take k ++ a :: xs.drop (k + 1) :=
          List.set_eq_take_cons_drop a hklen
        have hxs : xs = xs.take k ++ b :: xs.drop (k + 1) := by
          conv_lhs => rw [← List.take_append_drop k xs]
          rw [List.drop_eq_getElem_cons hklen, hkb]
        rw [hdecomp]
        refine List.Perm.trans (List.Perm.cons b List.perm_middle) ?_
        refine List.Perm.trans (List.Perm.swap a b _) ?_
        refine List.Perm.trans (List.Perm.cons a List.perm_middle.symm) ?_
        conv_rhs => rw [hxs]
      | succ m =>
        have h1' : xs.get? m = some a := by simpa [List.get?] using h1
        have h2' : xs.get? k = some b := by simpa [List.get?] using h2
        show (x :: (xs.set m b).set k a).Perm (x :: xs)
        exact List.Perm.cons x (ih m k (Nat.lt_of_succ_lt_succ hij) h1' h2')

theorem listSwap_perm (l : List Nat) (i j : Nat) : (listSwap l i j).Perm l := by
  rcases h1 : l.get? i with _ | a
  · have heq : listSwap l i j = l := by
      unfold listSwap; rw [h1]
    rw [heq]
  · rcases h2 : l.get? j with _ | b
    · have heq : listSwap l i j = l := by
        unfold listSwap; rw [h1, h2]
      rw [heq]
    · have heq : listSwap l i j = (l.set i b).set j a := by
        unfold listSwap; rw [h1, h2]
      rw [heq]
      rcases Nat.lt_trichotomy i j with hij | hij | hij
      · exact set_set_perm a b l i j hij h1 h2
      · subst hij
        have hab : a = b := by rw [h1] at h2; exact Option.some.inj h2
        subst hab
        have hi : i < l.length := by
          by_contra h
          rw [List.get?_eq_none.2 (Nat.le_of_not_lt h)] at h1
          exact Option.noConfusion h1
        have ha : l[i] = a := by
          rw [List.get?_eq_getElem?, List.getElem?_eq_getElem hi] at h1
          exact Option.some.inj h1
        have hid : l.set i a = l := by
          rw [List.set_eq_take_cons_drop a hi, ← ha, List.getElem_cons_drop,
            List.take_append_drop]
        rw [List.set_set, hid]
      · rw [List.set_comm b a l (by omega : i ≠ j)]
        exact set_set_perm b a l j i hij h2 h1

theorem fyLoop_perm (i : Nat) : ∀ (l : List Nat) (state : Int),
    (fyLoop l state i).Perm l := by
  induction i with
  | zero => intro l state; exact List.Perm.refl l
  | succ n ih =>
    intro l state
    exact (ih _ _).trans (listSwap_perm l _ _)

theorem getShuffledIndices_perm (total : Nat) (seed : Int) :
    (getShuffledIndices total seed).Perm (List.range total) :=
  fyLoop_perm _ _ _

theorem length_getShuffledIndices (total : Nat) (seed : Int) :
    (getShuffledIndices total seed).length = total := by
  rw [(getShuffledIndices_perm total seed).length_eq, List.length_range]

/-- Lower bound for the truncating remainder: `-s < d.tmod s` for `s > 0`. -/
theorem tmod_gt_neg (d s : Int) (hs : 0 < s) : -s < d.tmod s := by
  rcases le_or_lt 0 d with hd | hd
  · have := Int.tmod_nonneg s hd
    omega
  · have hneg : d.tmod s = -((-d).tmod s) := by
      rw [Int.tmod_def, Int.tmod_def, Int.neg_tdiv]
      ring
    have hlt : (-d).tmod s < s := Int.tmod_lt_of_pos (-d) hs
    omega

/-- The JavaScript idiom `((d % total) + total) % total` computes the
Euclidean remainder of `d` by `total`. -/
theorem positionInCycle_eq_emod (d s : Int) (hs : 0 < s) :
    (d.tmod s + s).tmod s = d % s := by
  have h1 : -s < d.tmod s := tmod_gt_neg d s hs
  have h2 : d.tmod s < s := Int.tmod_lt_of_pos d hs
  have h3 : 0 ≤ d.tmod s + s := by omega
  rw [Int.tmod_eq_emod h3 (Int.le_of_lt hs)]
  have h4 : (d.tmod s + s) % s = (d.tmod s) % s := by
    have h := Int.add_mul_emod_self_left (a := d.tmod s) (b := s) (c := 1)
    rw [Int.mul_one] at h
    exact h
  rw [h4, Int.tmod_def]
  have h5 : d - s * d.tdiv s = d + (- d.tdiv s) * s := by ring
  rw [h5, Int.add_mul_emod_self]

/-- Inside cycle `c`, day `c*size + k` (with `0 ≤ k < size`) looks up
position `k` of the cycle-`c` permutation. -/
theorem getDailyIndex_in_cycle (size k : Nat) (c : Int) (hs : 0 < size)
    (hk : k < size) :
    getDailyIndex (c * size + k) size = (getShuffledIndices size c).get? k := by
  have hsz : (0 : Int) < (size : Int) := by exact_mod_cast hs
  have hcycle : (c * (size : Int) + k).fdiv size = c := by
    rw [Int.fdiv_eq_ediv _ (Int.le_of_lt hsz)]
    have h1 : ((k : Int) + c * size) / size = (k : Int) / size + c :=
      Int.add_mul_ediv_right _ _ (by omega)
    have h2 : ((k : Int)) / size = 0 :=
      Int.ediv_eq_zero_of_lt (by exact_mod_cast Nat.zero_le k) (by exact_mod_cast hk)
    have h3 : c * (size : Int) + k = k + c * size := by ring
    rw [h3, h1, h2]
    ring
  have hpos : ((c * (size : Int) + k).tmod size + size).tmod size = (k : Int) := by
    rw [positionInCycle_eq_emod _ _ hsz]
    have h1 : c * (size : Int) + k = (k : Int) + c * size := by ring
    rw [h1, Int.add_mul_emod_self]
    exact Int.emod_eq_of_lt (by exact_mod_cast Nat.zero_le k) (by exact_mod_cast hk)
  unfold getDailyIndex
  rw [hcycle, hpos]
  simp

/-- Mapping `get?` over `range l.length` recovers `l.map some`. -/
theorem map_get?_range (l : List Nat) :
    (List.range l.length).map l.get? = l.map some := by
  apply List.ext_getElem
  · simp
  · intro n h1 h2
    have hn : n < l.length := by simpa using h2
    simp [List.getElem_map, List.getElem_range, List.get?_eq_getElem?,
      List.getElem?_eq_getElem hn]

/-! ### Claim theorems: scheduler -/

/-- C1: for every collection size `size > 0` and every cycle number `c`, the
full-cycle scheduler maps the `size` consecutive days
`c*size, ..., c*size + size - 1` (days counted from the 2024-01-01 epoch) to
indices forming exactly a permutation of `{0, ..., size-1}`: the multiset of
results equals the multiset of `some` applied to `0, ..., size-1`, each index
appearing exactly once within the cycle. -/
theorem dailyIndex_full_cycle (size : Nat) (c : Int) (hs : 0 < size) :
    ((List.range size).map fun (k : Nat) => getDailyIndex (c * size + k) size).Perm
      ((List.range size).map some) := by
  have hmap : ((List.range size).map fun (k : Nat) => getDailyIndex (c * size + k) size) =
      (getShuffledIndices size c).map some := by
    have hlen : (getShuffledIndices size c).length = size :=
      length_getShuffledIndices size c
    have h1 : ((List.range size).map fun (k : Nat) => getDailyIndex (c * size + k) size) =
        (List.range size).map (getShuffledIndices size c).get? := by
      apply List.map_congr_left
      intro k hk
      exact getDailyIndex_in_cycle size k c hs (List.mem_range.1 hk)
    have h2 := map_get?_range (getShuffledIndices size c)
    rw [hlen] at h2
    rw [h1, h2]
  rw [hmap]
  exact (getShuffledIndices_perm size c).map some

/-- Witness for C1 at `size = 5`, `c = -2` (a pre-epoch cycle). -/
theorem dailyIndex_full_cycle_witness :
    0 < 5 ∧
      ((List.range 5).map fun (k : Nat) => getDailyIndex (-2 * (5 : Nat) + k) 5).Perm
        ((List.range 5).map some) :=
  ⟨by decide, dailyIndex_full_cycle 5 (-2) (by decide)⟩

/-- C2: for every `size > 0` and every date (as a day number, including
dates before the 2024-01-01 epoch), `getDailyIndex` returns `some i` with
`i < size`: the permutation lookup is always in bounds. -/
theorem dailyIndex_in_bounds (d : Int) (size : Nat) (hs : 0 < size) :
    ∃ i, getDailyIndex d size = some i ∧ i < size := by
  have hsz : (0 : Int) < (size : Int) := by exact_mod_cast hs
  have h1 : -((size : Int)) < d.tmod size := tmod_gt_neg d size hsz
  have h2 : d.tmod size < size := Int.tmod_lt_of_pos d hsz
  have h3 : 0 ≤ d.tmod size + size := by omega
  have hlt : (d.tmod size + size).tmod size < size := Int.tmod_lt_of_pos _ hsz
  have hnn : 0 ≤ (d.tmod size + size).tmod size := by
    rw [Int.tmod_eq_emod h3 (Int.le_of_lt hsz)]
    exact Int.emod_nonneg _ (by omega)
  set pos := ((d.tmod size + size).tmod size).toNat with hpos
  have hposlt : pos < size := by omega
  have hlen : (getShuffledIndices size (d.fdiv size)).length = size :=
    length_getShuffledIndices size _
  have hget : ∃ v, (getShuffledIndices size (d.fdiv size)).get? pos = some v := by
    rw [List.get?_eq_getElem?]
    exact ⟨_, List.getElem?_eq_getElem (by omega)⟩
  obtain ⟨v, hv⟩ := hget
  refine ⟨v, ?_, ?_⟩
  · unfold getDailyIndex
    exact hv
  · have hmem : v ∈ getShuffledIndices size (d.fdiv size) := by
      rw [List.get?_eq_getElem?] at hv
      exact List.getElem?_mem hv
    have := (getShuffledIndices_perm size (d.fdiv size)).subset hmem
    exact List.mem_range.1 this

/-- Witness for C2 at a pre-epoch date, `d = -1000`, `size = 7`. -/
theorem dailyIndex_in_bounds_witness :
    0 < 7 ∧ ∃ i, getDailyIndex (-1000) 7 = some i ∧ i < 7 :=
  ⟨by decide, dailyIndex_in_bounds (-1000) 7 (by decide)⟩

/-- C10: the scheduler has no guard for an empty collection: for
`total = 0` the permutation array is empty and the lookup has no defined
result, so the total embedding returns `none` for every date. -/
theorem dailyIndex_total_zero (d : Int) : getDailyIndex d 0 = none := by
  unfold getDailyIndex getShuffledIndices
  simp [fyLoop]

/-- Witness for C10 (the statement has a universally quantified date, no
hypothesis — the instance at day 123 is recorded for concreteness). -/
theorem dailyIndex_total_zero_witness : getDailyIndex 123 0 = none :=
  dailyIndex_total_zero 123

/-! ### Range queries -/

/-- Reversing a map over `range n` re-indexes by `n - 1 - i`. -/
theorem reverse_map_range {α : Type} (n : Nat) (f : Nat → α) :
    ((List.range n).map f).reverse = (List.range n).map fun i => f (n - 1 - i) := by
  apply List.ext_getElem
  · simp
  · intro i h1 h2
    rw [List.getElem_reverse]
    simp [List.getElem_map, List.getElem_range]

/-- C6: for every start day `d`, every count `N > 0` and every size,
`getDateRangeIndices(d, +N, size)` and `getDateRangeIndices(d+N-1, -N, size)`
cover the same span of `N` consecutive days and yield the same (date, index)
pairs; both results list the dates `d, d+1, ..., d+N-1` in chronological
oldest-first order (strictly increasing). -/
theorem dateRange_round_trip (d : Int) (N : Nat) (total : Nat) (hN : 0 < N) :
    getDateRangeIndices d N total =
        getDateRangeIndices (d + N - 1) (-(N : Int)) total ∧
      (getDateRangeIndices d N total).map Prod.fst =
        ((List.range N).map fun (i : Nat) => d + i) ∧
      (getDateRangeIndices d N total).Pairwise fun p q => p.1 < q.1 := by
  have hfwd : getDateRangeIndices d N total =
      (List.range N).map fun (i : Nat) => (d + i, getDailyIndex (d + i) total) := by
    unfold getDateRangeIndices
    have hge : ((N : Int) ≥ 0) := by exact_mod_cast Nat.zero_le N
    have hnlt : ¬ ((N : Int) < 0) := by omega
    simp only [if_pos hge, if_neg hnlt, Int.natAbs_ofNat]
    apply List.map_congr_left
    intro i _
    simp [Int.mul_one]
  have hbwd : getDateRangeIndices (d + N - 1) (-(N : Int)) total =
      (List.range N).map fun (i : Nat) => (d + i, getDailyIndex (d + i) total) := by
    unfold getDateRangeIndices
    have hlt : (-(N : Int)) < 0 := by
      have : (0 : Int) < N := by exact_mod_cast hN
      omega
    have hnge : ¬ ((-(N : Int)) ≥ 0) := by omega
    simp only [if_pos hlt, if_neg hnge, Int.natAbs_neg, Int.natAbs_ofNat]
    rw [reverse_map_range]
    apply List.map_congr_left
    intro i hi
    have hiN : i < N := List.mem_range.1 hi
    have hcast : ((N - 1 - i : Nat) : Int) = (N : Int) - 1 - i := by
      push_cast [Nat.cast_sub (by omega : i ≤ N - 1), Nat.cast_sub (by omega : 1 ≤ N)]
      ring
    have harg : d + (N : Int) - 1 + ((N - 1 - i : Nat) : Int) * (-1) = d + i := by
      rw [hcast]; ring
    rw [harg]
  refine ⟨hfwd.trans hbwd.symm, ?_, ?_⟩
  · rw [hfwd, List.map_map]
    apply List.map_congr_left
    intro i _
    rfl
  · rw [hfwd]
    have hpw : (List.range N).Pairwise (· < ·) := List.pairwise_lt_range N
    exact hpw.map _ fun a b hab => by
      show d + (a : Int) < d + b
      have : (a : Int) < b := by exact_mod_cast hab
      omega

/-- Witness for C6 at `d = 10`, `N = 3`, `total = 4`. -/
theorem dateRange_round_trip_witness :
    0 < 3 ∧
      (getDateRangeIndices 10 3 4 = getDateRangeIndices (10 + 3 - 1) (-(3 : Int)) 4 ∧
        (getDateRangeIndices 10 3 4).map Prod.fst =
          ((List.range 3).map fun (i : Nat) => 10 + i) ∧
        (getDateRangeIndices 10 3 4).Pairwise fun p q => p.1 < q.1) :=
  ⟨by decide, dateRange_round_trip 10 3 4 (by decide)⟩

/-! ### String utilities for the markup pipeline (`src/cli/index.ts`)

JavaScript strings are embedded as `List Char`.  Each `String.replace`
call with a concrete regular expression is embedded as a left-to-right
scanner (`scanReplace`) driven by a per-pattern matcher that reproduces the
leftmost-match and lazy/greedy behaviour of that concrete pattern. -/

/-- The JavaScript `\s` character class (ECMAScript WhiteSpace and
LineTerminator productions). -/
def isJsSpace (c : Char) : Bool :=
  c == ' ' || c == '\t' || c == '\n' || c == '\x0b' || c == '\x0c' ||
  c == '\r' || c == ' ' || c == ' ' ||
  (' ' ≤ c && c ≤ ' ') ||
  c == ' ' || c == ' ' || c == ' ' || c == ' ' ||
  c == '　' || c == '﻿'

/-- The JavaScript LineTerminator class (the characters a regex `.` does not
match). -/
def isLineTerm (c : Char) : Bool :=
  c == '\n' || c == '\r' || c == ' ' || c == ' '

/-- Case-insensitive match of one input character `c` against one pattern
character `p` under the regex `i` flag.  All patterns in the source are
written in lower case, so `c` matches iff it equals `p` or is the upper-case
form of a lower-case letter `p` (non-ASCII characters never canonicalise
onto ASCII pattern characters). -/
def ciChar (p c : Char) : Bool :=
  c == p || ('a' ≤ p && p ≤ 'z' && c.toNat + 32 == p.toNat)

/-- Case-insensitive prefix test of a pattern against the input. -/
def ciStarts : List Char → List Char → Bool
  | [], _ => true
  | _ :: _, [] => false
  | p :: ps, c :: cs => ciChar p c && ciStarts ps cs

/-- Earliest (lazy) case-insensitive occurrence of `pat`: returns the text
before the occurrence and the text after it. -/
def splitAtCi (pat : List Char) : List Char → Option (List Char × List Char)
  | [] => none
  | c :: cs =>
    if ciStarts pat (c :: cs) then some ([], (c :: cs).drop pat.length)
    else
      match splitAtCi pat cs with
      | some (pre, rest) => some (c :: pre, rest)
      | none => none

/-- Like `splitAtCi`, but the text before the occurrence may not contain a
line terminator (the semantics of a lazy `.*?` without the `s` flag). -/
def splitAtCiNoNl (pat : List Char) : List Char → Option (List Char × List Char)
  | [] => none
  | c :: cs =>
    if ciStarts pat (c :: cs) then some ([], (c :: cs).drop pat.length)
    else if isLineTerm c then none
    else
      match splitAtCiNoNl pat cs with
      | some (pre, rest) => some (c :: pre, rest)
      | none => none

/-- Earliest case-sensitive occurrence of `pat` (the semantics of
`String.indexOf`): text before and text after the occurrence. -/
def splitAtLit (pat : List Char) : List Char → Option (List Char × List Char)
  | [] => none
  | c :: cs =>
    if pat.isPrefixOf (c :: cs) then some ([], (c :: cs).drop pat.length)
    else
      match splitAtLit pat cs with
      | some (pre, rest) => some (c :: pre, rest)
      | none => none

def containsCi (pat l : List Char) : Bool := (splitAtCi pat l).isSome

/-- Match an opening tag `<name[^>]*>` (case-insensitively) at the head of
the input: returns the attribute span (the `[^>]*` part) and the remainder
after the closing `>`. -/
def matchOpenTag (name : List Char) : List Char → Option (List Char × List Char)
  | [] => none
  | c :: cs =>
    if c = '<' && ciStarts name cs then
      match (cs.drop name.length).dropWhile (fun x => x != '>') with
      | [] => none
      | _ :: r2 => some ((cs.drop name.length).takeWhile (fun x => x != '>'), r2)
    else none

/-- Global left-to-right regex replacement: at each position try the
matcher; on a match emit the replacement and resume after the match,
otherwise keep the character and move one position right.  Every matcher
used below consumes at least one character, so `fuel = length` always
suffices. -/
def scanReplace (f : List Char → Option (List Char × List Char)) :
    Nat → List Char → List Char
  | _, [] => []
  | 0, l => l
  | fuel + 1, c :: cs =>
    match f (c :: cs) with
    | some (repl, rest) => repl ++ scanReplace f fuel rest
    | none => c :: scanReplace f fuel cs

/-- Matcher for a literal pattern with a fixed replacement (embeds
`replace(/lit/g, repl)` for a regex without metacharacters). -/
def tryLit (pat repl : List Char) (l : List Char) : Option (List Char × List Char) :=
  if pat.isPrefixOf l then some (repl, l.drop pat.length) else none

def replaceLit (pat repl : List Char) (l : List Char) : List Char :=
  scanReplace (tryLit pat repl) l.length l

def isDigitCh (c : Char) : Bool := '0' ≤ c && c ≤ '9'

def isHexCh (c : Char) : Bool :=
  ('0' ≤ c && c ≤ '9') || ('a' ≤ c && c ≤ 'f') || ('A' ≤ c && c ≤ 'F')

def decDigitsVal (ds : List Char) : Nat :=
  ds.foldl (fun acc c => acc * 10 + (c.toNat - 48)) 0

def hexDigitVal (c : Char) : Nat :=
  if '0' ≤ c && c ≤ '9' then c.toNat - 48
  else if 'a' ≤ c && c ≤ 'f' then c.toNat - 87
  else c.toNat - 55

def hexDigitsVal (ds : List Char) : Nat :=
  ds.foldl (fun acc c => acc * 16 + hexDigitVal c) 0

/-- `String.fromCharCode`: reduce to a 16-bit code unit.  A code unit that
is a lone surrogate is not a Unicode scalar value; `Char.ofNat` embeds it as
the null character. -/
def jsFromCharCode (n : Nat) : Char := Char.ofNat (n % 65536)

/-- Matcher for `/&#(\d+);/g`. -/
def tryDecEntity : List Char → Option (List Char × List Char)
  | c1 :: c2 :: rest =>
    if c1 = '&' && c2 = '#' then
      match rest.takeWhile isDigitCh, rest.dropWhile isDigitCh with
      | [], _ => none
      | ds, ';' :: r2 => some ([jsFromCharCode (decDigitsVal ds)], r2)
      | _, _ => none
    else none
  | _ => none

def decodeDecEntities (l : List Char) : List Char :=
  scanReplace tryDecEntity l.length l

/-- Matcher for `/&#x([0-9a-fA-F]+);/g`. -/
def tryHexEntity : List Char → Option (List Char × List Char)
  | c1 :: c2 :: c3 :: rest =>
    if c1 = '&' && c2 = '#' && c3 = 'x' then
      match rest.takeWhile isHexCh, rest.dropWhile isHexCh with
      | [], _ => none
      | ds, ';' :: r2 => some ([jsFromCharCode (hexDigitsVal ds)], r2)
      | _, _ => none
    else none
  | _ => none

def decodeHexEntities (l : List Char) : List Char :=
  scanReplace tryHexEntity l.length l

/-- Matcher for `/\s+/g → " "`: a maximal whitespace run becomes one
space. -/
def trySpaceRun : List Char → Option (List Char × List Char)
  | [] => none
  | c :: cs =>
    if isJsSpace c then some ([' '], (c :: cs).dropWhile isJsSpace) else none

def collapseWs (l : List Char) : List Char :=
  scanReplace trySpaceRun l.length l

/-- `String.prototype.trim`: strip whitespace from both ends. -/
def jsTrim (l : List Char) : List Char :=
  ((l.dropWhile isJsSpace).reverse.dropWhile isJsSpace).reverse

/-! ### Math Normalizer (`extractLatex`) -/

/-- Entity decoding applied to a captured LaTeX annotation in
`extractLatex`: `&amp;`, `&lt;`, `&gt;`, then numeric and hex character
references, in source order. -/
def decodeLatexEntities (l : List Char) : List Char :=
  decodeHexEntities (decodeDecEntities
    (replaceLit "&gt;".toList ">".toList
      (replaceLit "&lt;".toList "<".toList
        (replaceLit "&amp;".toList "&".toList l))))

/-- Attempt to match `<annotation[^>]*encoding="application/x-tex"[^>]*>`
at the head of the input; returns the remainder after the `>`. -/
def annotOpenAt (l : List Char) : Option (List Char) :=
  match matchOpenTag "annotation".toList l with
  | some (t, rest) =>
    if containsCi "encoding=\"application/x-tex\"".toList t then some rest else none
  | none => none

/-- Earliest position at which the annotation opening pattern matches
(the expansion of the lazy `[\s\S]*?` before it). -/
def findAnnotOpen : List Char → Option (List Char)
  | [] => none
  | c :: cs =>
    match annotOpenAt (c :: cs) with
    | some r => some r
    | none => findAnnotOpen cs

/-- Matcher for the `extractLatex` regex
`<math[^>]*>[\s\S]*?<annotation[^>]*encoding="application\/x-tex"[^>]*>([\s\S]*?)<\/annotation>[\s\S]*?<\/math>`
with replacement `` ` $${decodedLatex}$ ` ``. -/
def tryMathLatex (l : List Char) : Option (List Char × List Char) :=
  match matchOpenTag "math".toList l with
  | none => none
  | some (_, rest) =>
    match findAnnotOpen rest with
    | none => none
    | some rest2 =>
      match splitAtCi "</annotation>".toList rest2 with
      | none => none
      | some (latex, rest3) =>
        match splitAtCi "</math>".toList rest3 with
        | none => none
        | some (_, rest4) =>
          some (' ' :: '$' :: (jsTrim (decodeLatexEntities latex) ++ ['$', ' ']), rest4)

/-- `extractLatex(html)`: replace annotated math elements by their inline
LaTeX. -/
def extractLatex (l : List Char) : List Char :=
  scanReplace tryMathLatex l.length l

/-! ### Markup Cleaner (`cleanHtmlText`) -/

/-- Matcher for `<sup[^>]*CLS[^>]*>.*?<\/sup>` (with `CLS` the given
literal, e.g. `class="reference"`); removed without replacement. -/
def trySupClass (cls : List Char) (l : List Char) : Option (List Char × List Char) :=
  match matchOpenTag "sup".toList l with
  | some (t, rest) =>
    if containsCi cls t then
      match splitAtCiNoNl "</sup>".toList rest with
      | some (_, r2) => some ([], r2)
      | none => none
    else none
  | none => none

/-- Matcher for `/<math[^>]*>[\s\S]*?<\/math>/gi` (annotation-less math
removal). -/
def tryMathRemove (l : List Char) : Option (List Char × List Char) :=
  match matchOpenTag "math".toList l with
  | some (_, rest) =>
    match splitAtCi "</math>".toList rest with
    | some (_, r2) => some ([], r2)
    | none => none
  | none => none

/-- Does an attribute span contain `class="..."` whose quoted value
contains `texhtml` (case-insensitively)? -/
def classValHasTexhtml : List Char → Bool
  | [] => false
  | c :: cs =>
    (if ciStarts "class=\"".toList (c :: cs) then
      match ((c :: cs).drop 7).dropWhile (fun x => x != '"') with
      | '"' :: _ =>
        containsCi "texhtml".toList (((c :: cs).drop 7).takeWhile (fun x => x != '"'))
      | _ => false
    else false) || classValHasTexhtml cs

/-- Matcher for
`/<span[^>]*class="[^"]*texhtml[^"]*"[^>]*>([\s\S]*?)<\/span>/gi` with
replacement `$1` (unwrap the span, keep its contents). -/
def trySpanTexhtml (l : List Char) : Option (List Char × List Char) :=
  match matchOpenTag "span".toList l with
  | some (t, rest) =>
    if classValHasTexhtml t then
      match splitAtCi "</span>".toList rest with
      | some (inner, r2) => some (inner, r2)
      | none => none
    else none
  | none => none

/-- Matcher for `/<img[^>]*>/gi`. -/
def tryImg (l : List Char) : Option (List Char × List Char) :=
  match matchOpenTag "img".toList l with
  | some (_, r2) => some ([], r2)
  | none => none

/-- Matcher for `/<[^>]+>/g` (strip any remaining tag): at least one
non-`>` character, then `>` (a non-empty `dropWhile` result necessarily
starts with `>`). -/
def tryAnyTag : List Char → Option (List Char × List Char)
  | [] => none
  | c :: cs =>
    if c = '<' then
      match cs.dropWhile (fun x => x != '>') with
      | [] => none
      | _ :: r2 => if cs.takeWhile (fun x => x != '>') = [] then none else some ([], r2)
    else none

def stepScan (f : List Char → Option (List Char × List Char)) (l : List Char) :
    List Char :=
  scanReplace f l.length l

/-- `cleanHtmlText(html)`: the full Markup Cleaner pipeline, in source
order: math normalisation, reference and citation-needed removal, residual
math removal, texhtml-span unwrapping, image removal, tag stripping, entity
decoding, whitespace collapsing and trimming. -/
def cleanHtmlText (l : List Char) : List Char :=
  jsTrim (collapseWs
    (decodeHexEntities (decodeDecEntities
      (replaceLit "&quot;".toList "\"".toList
        (replaceLit "&gt;".toList ">".toList
          (replaceLit "&lt;".toList "<".toList
            (replaceLit "&amp;".toList "&".toList
              (replaceLit "&nbsp;".toList " ".toList
                (stepScan tryAnyTag
                  (stepScan tryImg
                    (stepScan trySpanTexhtml
                      (stepScan tryMathRemove
                        (stepScan (trySupClass "class=\"noprint\"".toList)
                          (stepScan (trySupClass "class=\"reference\"".toList)
                            (extractLatex l)))))))))))))))

/-! ### Records and the extraction pipeline (`src/cli/index.ts`) -/

/-- The `Misconception` record.  The `section` field name is a Lean keyword
and is therefore quoted. -/
structure Misconception where
  id : List Char
  text : List Char
  «section» : List Char
  subsection : Option (List Char)
  category : List Char
  source : List Char
deriving DecidableEq

/-- `generateId(text)`: lower-case, keep `[a-z0-9]`, truncate to 30
characters; append the sum of the character codes in hexadecimal. -/
def generateId (text : List Char) : List Char :=
  let hash := ((text.map Char.toLower).filter
    (fun c => ('a' ≤ c && c ≤ 'z') || ('0' ≤ c && c ≤ '9'))).take 30
  let checksum := text.foldl (fun acc c => acc + c.toNat) 0
  hash ++ '-' :: Nat.toDigits 16 checksum

/-- The list-marker test `text.match(/^[a-z]\.\s/i)`: under the `i` flag
the class `[a-z]` matches letters of either case. -/
def isListMarkerCi (l : List Char) : Bool :=
  match l with
  | c1 :: c2 :: c3 :: _ =>
    (('a' ≤ c1 && c1 ≤ 'z') || ('A' ≤ c1 && c1 ≤ 'Z')) && c2 == '.' && isJsSpace c3
  | _ => false

/-- The candidate filter of `extractMisconceptions`:
`text.length > 20 && !text.startsWith("Main article:") &&
!text.startsWith("See also:") && !text.match(/^[a-z]\.\s/i)`. -/
def passesFilters (text : List Char) : Bool :=
  decide (text.length > 20) && !("Main article:".toList.isPrefixOf text) &&
    !("See also:".toList.isPrefixOf text) && !(isListMarkerCi text)

/-- Truncate a list item's content at the first nested `<ul>`/`<ol>`
(`indexOf` is case-sensitive; `Math.min` picks the earlier occurrence). -/
def truncateNested (liContent : List Char) : List Char :=
  match splitAtLit "<ul>".toList liContent, splitAtLit "<ol>".toList liContent with
  | some (preU, _), some (preO, _) => if preU.length ≤ preO.length then preU else preO
  | some (preU, _), none => preU
  | none, some (preO, _) => preO
  | none, none => liContent

/-- Matcher for `/<li[^>]*>([\s\S]*?)<\/li>/gi`: returns the captured
content and the remainder after `</li>`. -/
def tryLiItem (l : List Char) : Option (List Char × List Char) :=
  match matchOpenTag "li".toList l with
  | some (_, rest) =>
    match splitAtCi "</li>".toList rest with
    | some (content, r2) => some (content, r2)
    | none => none
  | none => none

/-- Collect the contents of all top-level `li` matches, continuing after
each complete match. -/
def scanLis : Nat → List Char → List (List Char)
  | _, [] => []
  | 0, _ => []
  | fuel + 1, c :: cs =>
    match tryLiItem (c :: cs) with
    | some (content, rest) => content :: scanLis fuel rest
    | none => scanLis fuel cs

def extractListItems (slice : List Char) : List (List Char) :=
  scanLis slice.length slice

def wikiSource (pageTitle : List Char) : List Char :=
  "https://en.wikipedia.org/wiki/".toList ++ pageTitle

/-- Build one record from a raw list-item content: truncate nested lists,
clean, filter; `section: currentSection || category` substitutes the
category for an empty section title. -/
def mkRecord (category src sec : List Char) (sub : Option (List Char))
    (liContent : List Char) : Option Misconception :=
  let text := cleanHtmlText (truncateNested liContent)
  if passesFilters text then
    some { id := generateId text, text := text,
           «section» := if sec = [] then category else sec,
           subsection := sub, category := category, source := src }
  else none

/-- A heading boundary: anchor id, cleaned title, heading level, byte
offset of the match in the document. -/
structure Boundary where
  id : List Char
  title : List Char
  level : Nat
  start : Nat
deriving DecidableEq

/-- Capture of `[^>]*\s+id="([^"]+)"` inside an attribute span: the last
occurrence (greedy `[^>]*`) of whitespace followed by `id="`, captured up to
the closing quote. -/
def findIdAttr : List Char → Option (List Char)
  | [] => none
  | c :: cs =>
    match findIdAttr cs with
    | some v => some v
    | none =>
      if isJsSpace c && ciStarts "id=\"".toList cs then
        match (cs.drop 4).dropWhile (fun x => x != '"') with
        | '"' :: _ =>
          match (cs.drop 4).takeWhile (fun x => x != '"') with
          | [] => none
          | v => some v
        | _ => none
      else none

/-- Matcher for `/<hN[^>]*\s+id="([^"]+)"[^>]*>([\s\S]*?)<\/hN>/gi` with
`N` the given digit: returns `((id, raw title), remainder)`. -/
def tryHeading (digit : Char) (l : List Char) :
    Option ((List Char × List Char) × List Char) :=
  match matchOpenTag ['h', digit] l with
  | some (t, rest) =>
    match findIdAttr t with
    | some idv =>
      match splitAtCi ['<', '/', 'h', digit, '>'] rest with
      | some (rawTitle, r2) => some ((idv, rawTitle), r2)
      | none => none
    | none => none
  | none => none

/-- Scan for all heading matches, recording each match's index in the
original document (`match.index`). -/
def scanHeadings (digit : Char) : Nat → Nat → List Char → List (Nat × List Char × List Char)
  | _, _, [] => []
  | 0, _, _ => []
  | fuel + 1, pos, c :: cs =>
    match tryHeading digit (c :: cs) with
    | some ((idv, ttl), rest) =>
      (pos, idv, ttl) :: scanHeadings digit fuel (pos + ((c :: cs).length - rest.length)) rest
    | none => scanHeadings digit fuel (pos + 1) cs

/-- Stable insertion into a list sorted by `start` (earlier input elements
precede later ones with an equal key, as in `Array.prototype.sort`). -/
def insertBoundary (b : Boundary) : List Boundary → List Boundary
  | [] => [b]
  | x :: xs => if b.start ≤ x.start then b :: x :: xs else x :: insertBoundary b xs

/-- Stable sort by document position (`.sort((a, b) => a.start - b.start)`). -/
def sortBoundaries : List Boundary → List Boundary
  | [] => []
  | b :: bs => insertBoundary b (sortBoundaries bs)

/-- The denylist `skipSections` (matched case-sensitively on anchors). -/
def skipSections : List (List Char) :=
  ["References".toList, "See_also".toList, "Notes".toList,
   "External_links".toList, "Further_reading".toList, "Citations".toList]

def skipB (b : Boundary) : Bool := skipSections.contains b.id

/-- The main loop of `extractMisconceptions` over the sorted boundary
list, threading the mutable `currentSection`/`currentSubsection` state.  A
denylisted boundary is skipped (`continue`) before the state update; every
boundary still delimits the preceding region because the region end is the
next boundary's start regardless of the skip. -/
def processBoundaries (html category src : List Char) :
    List Char → Option (List Char) → List Boundary → List Misconception
  | _, _, [] => []
  | sec, sub, b :: rest =>
    if skipB b then processBoundaries html category src sec sub rest
    else
      let sec' := if b.level == 2 then b.title else sec
      let sub' := if b.level == 2 then none
        else if b.level == 3 then some b.title else sub
      let endIdx := match rest.head? with
        | some nb => nb.start
        | none => html.length
      let secHtml := (html.take endIdx).drop b.start
      (extractListItems secHtml).filterMap (mkRecord category src sec' sub') ++
        processBoundaries html category src sec' sub' rest

/-- `extractMisconceptions(html, category, pageTitle)`: find all `h2`/`h3`
boundaries, sort them by position, and walk them collecting records. -/
def extractMisconceptions (html category pageTitle : List Char) :
    List Misconception :=
  let h2s := (scanHeadings '2' html.length 0 html).map fun p =>
    { id := p.2.1, title := cleanHtmlText p.2.2, level := 2, start := p.1 : Boundary }
  let h3s := (scanHeadings '3' html.length 0 html).map fun p =>
    { id := p.2.1, title := cleanHtmlText p.2.2, level := 3, start := p.1 : Boundary }
  processBoundaries html category (wikiSource pageTitle) [] none
    (sortBoundaries (h2s ++ h3s))

/-! ### Deduplicating merge (`pull` command) -/

/-- One `Map.set` step on an insertion-ordered association list: an
existing key keeps its position and receives the new value, a new key is
appended (ECMAScript `Map` semantics). -/
def mapUpsert (acc : List (List Char × Misconception)) (k : List Char)
    (v : Misconception) : List (List Char × Misconception) :=
  if acc.any (fun p => p.1 == k) then
    acc.map (fun p => if p.1 == k then (k, v) else p)
  else acc ++ [(k, v)]

/-- `Array.from(new Map(all.map(m => [m.id, m])).values())`. -/
def uniqueMisconceptions (all : List Misconception) : List Misconception :=
  (all.foldl (fun acc m => mapUpsert acc m.id m) []).map Prod.snd

/-- The persisted output (the `generatedAt` wall-clock timestamp is
I/O and is not modelled). -/
structure MisconceptionsOutput where
  totalCount : Nat
  misconceptions : List Misconception
deriving DecidableEq

def buildOutput (all : List Misconception) : MisconceptionsOutput :=
  { totalCount := (uniqueMisconceptions all).length,
    misconceptions := uniqueMisconceptions all }

/-! ### Claim theorems: deduplicating merge -/

set_option synthInstance.maxHeartbeats 400000 in
/-- Invariant of the fold building the insertion-ordered map: keys are
pairwise distinct, every entry's key is its record's id, every entry's value
is the last record of the processed input with that id, and every processed
record's id has an entry. -/
theorem mapFold_invariant (pre : List Misconception) :
    (pre.foldl (fun acc m => mapUpsert acc m.id m) []).Pairwise
        (fun p q => p.1 ≠ q.1) ∧
      (∀ p ∈ pre.foldl (fun acc m => mapUpsert acc m.id m) [],
        p.1 = p.2.id ∧ p.2 ∈ pre ∧
          pre.reverse.find? (fun m => m.id == p.1) = some p.2) ∧
      (∀ m ∈ pre, ∃ p ∈ pre.foldl (fun acc m => mapUpsert acc m.id m) [], p.1 = m.id) := by
  induction pre using List.reverseRecOn with
  | nil => simp
  | append_singleton pre m ih =>
    obtain ⟨ih1, ih2, ih3⟩ := ih
    rw [List.foldl_append]
    set acc := pre.foldl (fun acc m => mapUpsert acc m.id m) [] with hacc
    simp only [List.foldl_cons, List.foldl_nil]
    unfold mapUpsert
    by_cases hany : acc.any (fun p => p.1 == m.id)
    · rw [if_pos hany]
      have hkey : ∀ p : List Char × Misconception,
          ((fun p => if p.1 == m.id then (m.id, m) else p) p).1 = p.1 := by
        intro p
        show (if (p.1 == m.id) = true then (m.id, m) else p).1 = p.1
        by_cases h : (p.1 == m.id) = true
        · rw [if_pos h]
          exact (eq_of_beq h).symm
        · rw [if_neg h]
      refine ⟨?_, ?_, ?_⟩
      · rw [List.pairwise_map]
        exact ih1.imp fun {p q} h => by rw [hkey p, hkey q]; exact h
      · intro p' hp'
        obtain ⟨p, hp, hfp⟩ := List.mem_map.1 hp'
        by_cases h : p.1 == m.id
        · rw [if_pos h] at hfp
          subst hfp
          refine ⟨rfl, by simp, ?_⟩
          rw [List.reverse_append, List.reverse_singleton, List.singleton_append,
            List.find?_cons_of_pos _ (by simp)]
        · rw [if_neg h] at hfp
          subst hfp
          obtain ⟨hk, hmem, hfind⟩ := ih2 p hp
          refine ⟨hk, List.mem_append_left _ hmem, ?_⟩
          rw [List.reverse_append, List.reverse_singleton, List.singleton_append,
            List.find?_cons_of_neg _ (by simpa using fun hmm => h (by simp [hmm]))]
          exact hfind
      · intro m' hm'
        rcases List.mem_append.1 hm' with hm'' | hm''
        · obtain ⟨p, hp, hpk⟩ := ih3 m' hm''
          exact ⟨_, List.mem_map_of_mem _ hp, by rw [hkey p]; exact hpk⟩
        · have hm3 : m' = m := by simpa using hm''
          subst hm3
          obtain ⟨p, hp, hpk⟩ := List.any_eq_true.1 hany
          refine ⟨_, List.mem_map_of_mem _ hp, ?_⟩
          rw [hkey p]
          exact eq_of_beq hpk
    · rw [if_neg hany]
      have hnew : ∀ p ∈ acc, p.1 ≠ m.id := by
        intro p hp heq
        exact hany (List.any_eq_true.2 ⟨p, hp, by simp [heq]⟩)
      refine ⟨?_, ?_, ?_⟩
      · rw [List.pairwise_append]
        refine ⟨ih1, List.pairwise_singleton _ _, ?_⟩
        intro p hp q hq
        have hq' : q = (m.id, m) := by simpa using hq
        subst hq'
        exact hnew p hp
      · intro p' hp'
        rcases List.mem_append.1 hp' with hp | hp
        · obtain ⟨hk, hmem, hfind⟩ := ih2 p' hp
          refine ⟨hk, List.mem_append_left _ hmem, ?_⟩
          rw [List.reverse_append, List.reverse_singleton, List.singleton_append,
            List.find?_cons_of_neg _
              (by simpa using fun hmm => hnew p' hp (by simp [hmm]))]
          exact hfind
        · have hp2 : p' = (m.id, m) := by simpa using hp
          subst hp2
          refine ⟨rfl, by simp, ?_⟩
          rw [List.reverse_append, List.reverse_singleton, List.singleton_append,
            List.find?_cons_of_pos _ (by simp)]
      · intro m' hm'
        rcases List.mem_append.1 hm' with hm'' | hm''
        · obtain ⟨p, hp, hpk⟩ := ih3 m' hm''
          exact ⟨p, List.mem_append_left _ hp, hpk⟩
        · have hm3 : m' = m := by simpa using hm''
          rw [hm3]
          exact ⟨_, List.mem_append_right _ (List.mem_singleton_self _), rfl⟩

/-- C5: after the pull command's merge, no two records share an id,
`totalCount` equals the number of records in the merged list, and every
merged record is the last record of the concatenated input (input-list
order) carrying its id — last-write-wins across documents. -/
theorem pull_dedup (all : List Misconception) :
    (uniqueMisconceptions all).Pairwise (fun a b => a.id ≠ b.id) ∧
      (buildOutput all).totalCount = (buildOutput all).misconceptions.length ∧
      (∀ r ∈ uniqueMisconceptions all, r ∈ all ∧
        all.reverse.find? (fun m => m.id == r.id) = some r) ∧
      (∀ m ∈ all, ∃ r ∈ uniqueMisconceptions all, r.id = m.id) := by
  obtain ⟨h1, h2, h3⟩ := mapFold_invariant all
  refine ⟨?_, rfl, ?_, ?_⟩
  · unfold uniqueMisconceptions
    rw [List.pairwise_map]
    refine h1.imp_of_mem ?_
    intro p q hp hq hne
    obtain ⟨hkp, _, _⟩ := h2 p hp
    obtain ⟨hkq, _, _⟩ := h2 q hq
    rw [← hkp, ← hkq]
    exact hne
  · intro r hr
    obtain ⟨p, hp, hpr⟩ := List.mem_map.1 hr
    obtain ⟨hk, hmem, hfind⟩ := h2 p hp
    subst hpr
    rw [← hk]
    exact ⟨hmem, hfind⟩
  · intro m hm
    obtain ⟨p, hp, hpk⟩ := h3 m hm
    obtain ⟨hk, _, _⟩ := h2 p hp
    exact ⟨p.2, List.mem_map_of_mem _ hp, by rw [← hk, hpk]⟩

/-- Witness for C5 on a concrete input with a duplicated id across
"documents": the theorem instantiated at that input. -/
theorem pull_dedup_witness :
    (uniqueMisconceptions
        [⟨"k1".toList, "t1".toList, "s".toList, none, "c1".toList, "u1".toList⟩,
         ⟨"k2".toList, "t2".toList, "s".toList, none, "c1".toList, "u1".toList⟩,
         ⟨"k1".toList, "t3".toList, "s".toList, none, "c2".toList, "u2".toList⟩]).Pairwise
        (fun a b => a.id ≠ b.id) ∧
      (buildOutput
        [⟨"k1".toList, "t1".toList, "s".toList, none, "c1".toList, "u1".toList⟩,
         ⟨"k2".toList, "t2".toList, "s".toList, none, "c1".toList, "u1".toList⟩,
         ⟨"k1".toList, "t3".toList, "s".toList, none, "c2".toList, "u2".toList⟩]).totalCount =
        (buildOutput
        [⟨"k1".toList, "t1".toList, "s".toList, none, "c1".toList, "u1".toList⟩,
         ⟨"k2".toList, "t2".toList, "s".toList, none, "c1".toList, "u1".toList⟩,
         ⟨"k1".toList, "t3".toList, "s".toList, none, "c2".toList, "u2".toList⟩]).misconceptions.length ∧
      (∀ r ∈ uniqueMisconceptions
        [⟨"k1".toList, "t1".toList, "s".toList, none, "c1".toList, "u1".toList⟩,
         ⟨"k2".toList, "t2".toList, "s".toList, none, "c1".toList, "u1".toList⟩,
         ⟨"k1".toList, "t3".toList, "s".toList, none, "c2".toList, "u2".toList⟩],
        r ∈ [⟨"k1".toList, "t1".toList, "s".toList, none, "c1".toList, "u1".toList⟩,
         ⟨"k2".toList, "t2".toList, "s".toList, none, "c1".toList, "u1".toList⟩,
         ⟨"k1".toList, "t3".toList, "s".toList, none, "c2".toList, "u2".toList⟩] ∧
        ([⟨"k1".toList, "t1".toList, "s".toList, none, "c1".toList, "u1".toList⟩,
         ⟨"k2".toList, "t2".toList, "s".toList, none, "c1".toList, "u1".toList⟩,
         ⟨"k1".toList, "t3".toList, "s".toList, none, "c2".toList, "u2".toList⟩] : List Misconception).reverse.find?
          (fun m => m.id == r.id) = some r) ∧
      (∀ m ∈ ([⟨"k1".toList, "t1".toList, "s".toList, none, "c1".toList, "u1".toList⟩,
         ⟨"k2".toList, "t2".toList, "s".toList, none, "c1".toList, "u1".toList⟩,
         ⟨"k1".toList, "t3".toList, "s".toList, none, "c2".toList, "u2".toList⟩] : List Misconception),
        ∃ r ∈ uniqueMisconceptions
          [⟨"k1".toList, "t1".toList, "s".toList, none, "c1".toList, "u1".toList⟩,
           ⟨"k2".toList, "t2".toList, "s".toList, none, "c1".toList, "u1".toList⟩,
           ⟨"k1".toList, "t3".toList, "s".toList, none, "c2".toList, "u2".toList⟩], r.id = m.id) :=
  pull_dedup _

/-! ### Claim theorems: candidate filter -/

/-- The spec's wording of the marker rejection: a lower-case single letter
followed by a period and a space. -/
def lowercaseMarkerSpec (l : List Char) : Bool :=
  match l with
  | c1 :: c2 :: c3 :: _ => ('a' ≤ c1 && c1 ≤ 'z') && c2 == '.' && c3 == ' '
  | _ => false

/-- The claim's acceptance condition for a cleaned list-item text, stated
from the spec's words (length, navigational stubs, lower-case marker). -/
def specListItemFilter (text : List Char) : Bool :=
  decide (text.length > 20) && !("Main article:".toList.isPrefixOf text) &&
    !("See also:".toList.isPrefixOf text) && !(lowercaseMarkerSpec text)

/-- C7 counterexample: the text `"A. This sentence is clearly long
enough."` satisfies every acceptance condition of the claim (its marker is
upper-case, so per the claim it should become a record), yet the code's
filter rejects it: the regex `/^[a-z]\.\s/i` is case-insensitive. -/
theorem listItemFilter_counterexample :
    specListItemFilter "A. This sentence is clearly long enough.".toList = true ∧
      passesFilters "A. This sentence is clearly long enough.".toList = false := by
  decide

theorem isPrefixOf_iff_exists : ∀ (p l : List Char),
    p.isPrefixOf l = true ↔ ∃ r, l = p ++ r
  | [], l => by simp [List.isPrefixOf]
  | a :: p, [] => by simp [List.isPrefixOf]
  | a :: p, b :: l => by
    simp only [List.isPrefixOf, Bool.and_eq_true, beq_iff_eq, List.cons_append]
    constructor
    · rintro ⟨rfl, h⟩
      obtain ⟨r, rfl⟩ := (isPrefixOf_iff_exists p l).1 h
      exact ⟨r, rfl⟩
    · rintro ⟨r, heq⟩
      injection heq with h1 h2
      exact ⟨h1.symm, (isPrefixOf_iff_exists p l).2 ⟨r, h2⟩⟩

/-- Shape characterisation of the code's case-insensitive marker test. -/
theorem isListMarkerCi_iff (t : List Char) :
    isListMarkerCi t = true ↔
      ∃ (c1 c3 : Char) (r : List Char), t = c1 :: '.' :: c3 :: r ∧
        (('a' ≤ c1 ∧ c1 ≤ 'z') ∨ ('A' ≤ c1 ∧ c1 ≤ 'Z')) ∧ isJsSpace c3 = true := by
  match t with
  | [] =>
    constructor
    · intro h; exact absurd h (by simp [isListMarkerCi])
    · rintro ⟨c1, c3, r, heq, -⟩; exact List.noConfusion heq
  | [c1] =>
    constructor
    · intro h; exact absurd h (by simp [isListMarkerCi])
    · rintro ⟨c1', c3, r, heq, -⟩
      injection heq with e1 heq2; exact List.noConfusion heq2
  | [c1, c2] =>
    constructor
    · intro h; exact absurd h (by simp [isListMarkerCi])
    · rintro ⟨c1', c3, r, heq, -⟩
      injection heq with e1 heq2; injection heq2 with e2 heq3
      exact List.noConfusion heq3
  | c1 :: c2 :: c3 :: r =>
    show ((('a' ≤ c1 && c1 ≤ 'z') || ('A' ≤ c1 && c1 ≤ 'Z')) && c2 == '.' &&
      isJsSpace c3) = true ↔ _
    simp only [Bool.and_eq_true, Bool.or_eq_true, decide_eq_true_eq, beq_iff_eq]
    constructor
    · rintro ⟨⟨hcls, h2⟩, h3⟩
      exact ⟨c1, c3, r, by rw [h2], hcls, h3⟩
    · rintro ⟨c1', c3', r', heq, hcls, h3⟩
      injection heq with e1 heq2
      injection heq2 with e2 heq3
      injection heq3 with e3 e4
      subst e1; subst e2; subst e3
      exact ⟨⟨hcls, rfl⟩, h3⟩

/-- C7 (amended): a cleaned top-level list-item text becomes a record iff
its length exceeds 20, it does not begin with `"Main article:"` or
`"See also:"`, and it does not begin with a single-letter list marker of
either case — a letter, a period, and a whitespace character (the code's
marker test is case-insensitive and accepts any `\s`); record creation from
a raw item is exactly this filter applied to the cleaned truncated text. -/
theorem listItemFilter_amended :
    (∀ t : List Char, passesFilters t = true ↔
      (t.length > 20 ∧
        (¬ ∃ r, t = "Main article:".toList ++ r) ∧
        (¬ ∃ r, t = "See also:".toList ++ r) ∧
        (¬ ∃ (c1 c3 : Char) (r : List Char), t = c1 :: '.' :: c3 :: r ∧
          (('a' ≤ c1 ∧ c1 ≤ 'z') ∨ ('A' ≤ c1 ∧ c1 ≤ 'Z')) ∧ isJsSpace c3 = true))) ∧
      (∀ category src sec sub li,
        (mkRecord category src sec sub li).isSome =
          passesFilters (cleanHtmlText (truncateNested li))) := by
  constructor
  · intro t
    have hb : passesFilters t = true ↔
        (t.length > 20 ∧ ("Main article:".toList.isPrefixOf t) = false ∧
          ("See also:".toList.isPrefixOf t) = false ∧ isListMarkerCi t = false) := by
      unfold passesFilters
      simp [Bool.and_eq_true, Bool.not_eq_true', and_assoc]
    rw [hb]
    refine and_congr Iff.rfl (and_congr ?_ (and_congr ?_ ?_))
    · rw [Bool.eq_false_iff]
      exact not_congr ((isPrefixOf_iff_exists _ t).trans
        (by constructor <;> (rintro ⟨r, h⟩; exact ⟨r, h⟩)))
    · rw [Bool.eq_false_iff]
      exact not_congr ((isPrefixOf_iff_exists _ t).trans
        (by constructor <;> (rintro ⟨r, h⟩; exact ⟨r, h⟩)))
    · rw [Bool.eq_false_iff]
      exact not_congr (isListMarkerCi_iff t)
  · intro category src sec sub li
    by_cases h : passesFilters (cleanHtmlText (truncateNested li)) = true
    · simp [mkRecord, h]
    · rw [Bool.not_eq_true] at h
      simp [mkRecord, h]

/-! ### Claim theorems: Math Normalizer -/

/-- Generic identity lemma for the scanners: if the matcher fails on every
suffix of the input, the replacement pass copies the input unchanged. -/
theorem scanReplace_eq_self (f : List Char → Option (List Char × List Char)) :
    ∀ (fuel : Nat) (l : List Char), (∀ s, s <:+ l → f s = none) →
      scanReplace f fuel l = l := by
  intro fuel
  induction fuel with
  | zero => intro l h; cases l <;> rfl
  | succ n ih =>
    intro l h
    cases l with
    | nil => rfl
    | cons c cs =>
      show (match f (c :: cs) with
        | some (repl, rest) => repl ++ scanReplace f n rest
        | none => c :: scanReplace f n cs) = c :: cs
      rw [h (c :: cs) (List.suffix_refl _)]
      exact congrArg (c :: ·) (ih cs fun s hs => h s (hs.trans (List.suffix_cons c cs)))

theorem matchOpenTag_suffix {name l t r : List Char}
    (h : matchOpenTag name l = some (t, r)) : r <:+ l := by
  cases l with
  | nil => exact absurd h (by simp [matchOpenTag])
  | cons c cs =>
    simp only [matchOpenTag] at h
    by_cases hci : (c = '<' && ciStarts name cs) = true
    · rw [if_pos hci] at h
      rcases hd : (cs.drop name.length).dropWhile (fun x => x != '>') with _ | ⟨c0, r2⟩
      · rw [hd] at h; exact absurd h (by simp)
      · rw [hd] at h
        simp only [Option.some.injEq, Prod.mk.injEq] at h
        obtain ⟨-, hr⟩ := h
        have h2 : (c0 :: r2) <:+ cs.drop name.length := by
          rw [← hd]; exact List.dropWhile_suffix _
        have h3 : cs.drop name.length <:+ cs := List.drop_suffix _ _
        have h4 : r2 <:+ c :: cs :=
          ((List.suffix_cons c0 r2).trans h2).trans (h3.trans (List.suffix_cons c cs))
        rwa [hr] at h4
    · rw [if_neg hci] at h; exact absurd h (by simp)

/-- Claim-side condition: the fragment contains no position at which the
x-tex annotation opening pattern matches. -/
def noAnnotB : List Char → Bool
  | [] => true
  | c :: cs => (annotOpenAt (c :: cs)).isNone && noAnnotB cs

theorem noAnnotB_of_suffix : ∀ {l s : List Char}, s <:+ l →
    noAnnotB l = true → noAnnotB s = true := by
  intro l
  induction l with
  | nil => intro s hs h; rw [List.suffix_nil.1 hs]; rfl
  | cons c cs ih =>
    intro s hs h
    rcases List.suffix_cons_iff.1 hs with rfl | hs'
    · exact h
    · have h2 : noAnnotB cs = true := by
        simp only [noAnnotB, Bool.and_eq_true] at h
        exact h.2
      exact ih hs' h2

theorem findAnnotOpen_none : ∀ (l : List Char), noAnnotB l = true →
    findAnnotOpen l = none := by
  intro l
  induction l with
  | nil => intro h; rfl
  | cons c cs ih =>
    intro h
    simp only [noAnnotB, Bool.and_eq_true] at h
    obtain ⟨h1, h2⟩ := h
    unfold findAnnotOpen
    rw [Option.isNone_iff_eq_none.1 h1]
    exact ih h2

theorem tryMathLatex_none_of_noAnnot {l : List Char} (h : noAnnotB l = true) :
    tryMathLatex l = none := by
  unfold tryMathLatex
  rcases hm : matchOpenTag "math".toList l with _ | ⟨t, rest⟩
  · rfl
  · have hs : rest <:+ l := matchOpenTag_suffix hm
    have hfind : findAnnotOpen rest = none :=
      findAnnotOpen_none rest (noAnnotB_of_suffix hs h)
    simp [hfind]

/-- C8 counterexample: a math element without an annotation is not left
unchanged when an annotated math element follows it — the lazy `[\s\S]*?`
spans both elements and the whole range collapses to the second formula.
The output no longer contains the annotation-less element at all. -/
theorem extractLatex_counterexample :
    extractLatex
        "<math>A</math><math><annotation encoding=\"application/x-tex\">X</annotation></math>".toList
        = " $X$ ".toList ∧
      splitAtLit "<math>A</math>".toList
        (extractLatex
          "<math>A</math><math><annotation encoding=\"application/x-tex\">X</annotation></math>".toList)
        = none := by
  constructor
  · decide
  · decide

/-- C8 (amended): the Math Normalizer rewrites the spec's example
`<math><annotation encoding="application/x-tex">E=mc^2</annotation></math>`
to `" $E=mc^2$ "`, and a fragment in which the x-tex annotation opening
pattern matches nowhere (in particular any fragment whose math elements all
lack annotations) is left completely unchanged. -/
theorem extractLatex_amended :
    extractLatex
        "<math><annotation encoding=\"application/x-tex\">E=mc^2</annotation></math>".toList
        = " $E=mc^2$ ".toList ∧
      ∀ l : List Char, noAnnotB l = true → extractLatex l = l := by
  constructor
  · decide
  · intro l h
    exact scanReplace_eq_self _ _ l fun s hs =>
      tryMathLatex_none_of_noAnnot (noAnnotB_of_suffix hs h)

/-- Witness for C8 (amended) at a fragment containing an annotation-less
math element and no annotation. -/
theorem extractLatex_amended_witness :
    noAnnotB "<math>A</math> text".toList = true ∧
      extractLatex "<math>A</math> text".toList = "<math>A</math> text".toList :=
  ⟨by decide, extractLatex_amended.2 _ (by decide)⟩

/-! ### Claim theorems: Markup Cleaner idempotence -/

/-- A scanner pass is the identity when its matcher only fires on a
trigger character that does not occur in the input. -/
theorem scanReplace_id_of_missing (f : List Char → Option (List Char × List Char))
    (trig : Char) (hnil : f [] = none)
    (hf : ∀ (c : Char) (cs : List Char), c ≠ trig → f (c :: cs) = none) :
    ∀ (fuel : Nat) (l : List Char), trig ∉ l → scanReplace f fuel l = l := by
  intro fuel l hl
  apply scanReplace_eq_self
  intro s hs
  cases s with
  | nil => exact hnil
  | cons c cs =>
    refine hf c cs fun hc => ?_
    subst hc
    exact hl (hs.subset (List.mem_cons_self _ _))

theorem matchOpenTag_cons_none (name : List Char) (c : Char) (cs : List Char)
    (hc : c ≠ '<') : matchOpenTag name (c :: cs) = none := by
  simp [matchOpenTag, hc]

theorem tryMathLatex_head (c : Char) (cs : List Char) (hc : c ≠ '<') :
    tryMathLatex (c :: cs) = none := by
  unfold tryMathLatex
  rw [matchOpenTag_cons_none _ _ _ hc]

theorem trySupClass_head (cls : List Char) (c : Char) (cs : List Char) (hc : c ≠ '<') :
    trySupClass cls (c :: cs) = none := by
  unfold trySupClass
  rw [matchOpenTag_cons_none _ _ _ hc]

theorem tryMathRemove_head (c : Char) (cs : List Char) (hc : c ≠ '<') :
    tryMathRemove (c :: cs) = none := by
  unfold tryMathRemove
  rw [matchOpenTag_cons_none _ _ _ hc]

theorem trySpanTexhtml_head (c : Char) (cs : List Char) (hc : c ≠ '<') :
    trySpanTexhtml (c :: cs) = none := by
  unfold trySpanTexhtml
  rw [matchOpenTag_cons_none _ _ _ hc]

theorem tryImg_head (c : Char) (cs : List Char) (hc : c ≠ '<') :
    tryImg (c :: cs) = none := by
  unfold tryImg
  rw [matchOpenTag_cons_none _ _ _ hc]

theorem tryAnyTag_head (c : Char) (cs : List Char) (hc : c ≠ '<') :
    tryAnyTag (c :: cs) = none := by
  simp [tryAnyTag, hc]

theorem tryLit_head (p : Char) (ps repl : List Char) (c : Char) (cs : List Char)
    (hc : c ≠ p) : tryLit (p :: ps) repl (c :: cs) = none := by
  unfold tryLit
  rw [if_neg]
  simp [List.isPrefixOf, Ne.symm hc]

theorem tryLit_nil (p : Char) (ps repl : List Char) : tryLit (p :: ps) repl [] = none := by
  simp [tryLit, List.isPrefixOf]

theorem tryDecEntity_head (c : Char) (cs : List Char) (hc : c ≠ '&') :
    tryDecEntity (c :: cs) = none := by
  cases cs with
  | nil => rfl
  | cons c2 rest => simp [tryDecEntity, hc]

theorem tryHexEntity_head (c : Char) (cs : List Char) (hc : c ≠ '&') :
    tryHexEntity (c :: cs) = none := by
  cases cs with
  | nil => rfl
  | cons c2 rest =>
    cases rest with
    | nil => rfl
    | cons c3 rest2 => simp [tryHexEntity, hc]

/-- All six tag-oriented passes are the identity on a string without `<`. -/
theorem tagSteps_id (l : List Char) (hl : '<' ∉ l) :
    extractLatex l = l ∧ (∀ cls, stepScan (trySupClass cls) l = l) ∧
      stepScan tryMathRemove l = l ∧ stepScan trySpanTexhtml l = l ∧
      stepScan tryImg l = l ∧ stepScan tryAnyTag l = l := by
  refine ⟨?_, fun cls => ?_, ?_, ?_, ?_, ?_⟩
  · exact scanReplace_id_of_missing _ '<' rfl (fun c cs hc => tryMathLatex_head c cs hc) _ l hl
  · exact scanReplace_id_of_missing _ '<' rfl (fun c cs hc => trySupClass_head cls c cs hc) _ l hl
  · exact scanReplace_id_of_missing _ '<' rfl (fun c cs hc => tryMathRemove_head c cs hc) _ l hl
  · exact scanReplace_id_of_missing _ '<' rfl (fun c cs hc => trySpanTexhtml_head c cs hc) _ l hl
  · exact scanReplace_id_of_missing _ '<' rfl (fun c cs hc => tryImg_head c cs hc) _ l hl
  · exact scanReplace_id_of_missing _ '<' rfl (fun c cs hc => tryAnyTag_head c cs hc) _ l hl

/-- All seven entity-decoding passes are the identity on a string without
`&`. -/
theorem entitySteps_id (l : List Char) (hl : '&' ∉ l) :
    (∀ ps repl, replaceLit ('&' :: ps) repl l = l) ∧
      decodeDecEntities l = l ∧ decodeHexEntities l = l := by
  refine ⟨fun ps repl => ?_, ?_, ?_⟩
  · exact scanReplace_id_of_missing _ '&' (tryLit_nil _ _ _)
      (fun c cs hc => tryLit_head _ _ _ c cs hc) _ l hl
  · exact scanReplace_id_of_missing _ '&' rfl (fun c cs hc => tryDecEntity_head c cs hc) _ l hl
  · exact scanReplace_id_of_missing _ '&' rfl (fun c cs hc => tryHexEntity_head c cs hc) _ l hl

theorem dropWhile_head_false (p : Char → Bool) : ∀ (l : List Char) (c : Char)
    (r : List Char), l.dropWhile p = c :: r → p c = false := by
  intro l
  induction l with
  | nil => intro c r h; exact absurd h (by simp)
  | cons a as ih =>
    intro c r h
    rw [List.dropWhile_cons] at h
    by_cases hp : p a = true
    · rw [if_pos hp] at h
      exact ih c r h
    · rw [if_neg hp] at h
      injection h with h1 _
      subst h1
      simpa using hp

theorem dropWhile_eq_self_of_head (p : Char → Bool) (l : List Char)
    (h : ∀ c, l.head? = some c → p c = false) : l.dropWhile p = l := by
  cases l with
  | nil => rfl
  | cons a as =>
    have ha := h a rfl
    rw [List.dropWhile_cons, if_neg (by simp [ha])]

theorem suffix_getLast? {s l : List Char} (hs : s <:+ l) (hne : s ≠ []) :
    s.getLast? = l.getLast? := by
  obtain ⟨w, rfl⟩ := hs
  rw [List.getLast?_append]
  have hsome : s.getLast?.isSome := by
    cases s with
    | nil => exact absurd rfl hne
    | cons a as => simp [List.getLast?_isSome]
  obtain ⟨x, hx⟩ := Option.isSome_iff_exists.1 hsome
  rw [hx]
  rfl

theorem mem_jsTrim {c : Char} {l : List Char} (h : c ∈ jsTrim l) : c ∈ l := by
  unfold jsTrim at h
  rw [List.mem_reverse] at h
  have h2 := (List.dropWhile_sublist _).subset h
  rw [List.mem_reverse] at h2
  exact (List.dropWhile_sublist _).subset h2

theorem jsTrim_chain {R : Char → Char → Prop} {l : List Char}
    (h : List.Chain' R l) : List.Chain' R (jsTrim l) := by
  unfold jsTrim
  rw [List.chain'_reverse]
  refine List.Chain'.suffix ?_ (List.dropWhile_suffix _)
  rw [List.chain'_reverse]
  exact List.Chain'.suffix h (List.dropWhile_suffix _)

/-- `trim` is idempotent: the trimmed string has no leading or trailing
whitespace left to remove. -/
theorem jsTrim_idem (l : List Char) : jsTrim (jsTrim l) = jsTrim l := by
  have hBrev : (jsTrim l).dropWhile isJsSpace = jsTrim l := by
    apply dropWhile_eq_self_of_head
    intro c hc
    unfold jsTrim at hc
    rw [List.head?_reverse] at hc
    rcases hBeq : (l.dropWhile isJsSpace).reverse.dropWhile isJsSpace with _ | ⟨b, bs⟩
    · rw [hBeq] at hc; simp at hc
    · have hne : (l.dropWhile isJsSpace).reverse.dropWhile isJsSpace ≠ [] := by
        rw [hBeq]; simp
      have h1 := suffix_getLast? (List.dropWhile_suffix (l := (l.dropWhile isJsSpace).reverse)
        isJsSpace) hne
      rw [h1, List.getLast?_reverse] at hc
      rcases hAeq : l.dropWhile isJsSpace with _ | ⟨a, as⟩
      · rw [hAeq] at hc; simp at hc
      · rw [hAeq] at hc
        have hca : c = a := by simpa using hc.symm
        subst hca
        exact dropWhile_head_false isJsSpace l c as hAeq
  show (((jsTrim l).dropWhile isJsSpace).reverse.dropWhile isJsSpace).reverse = jsTrim l
  rw [hBrev]
  have hB : ((jsTrim l).reverse).dropWhile isJsSpace = (jsTrim l).reverse := by
    apply dropWhile_eq_self_of_head
    intro c hc
    unfold jsTrim at hc
    rw [List.reverse_reverse] at hc
    rcases hBeq : (l.dropWhile isJsSpace).reverse.dropWhile isJsSpace with _ | ⟨b, bs⟩
    · rw [hBeq] at hc; simp at hc
    · rw [hBeq] at hc
      have hcb : c = b := by simpa using hc.symm
      subst hcb
      exact dropWhile_head_false isJsSpace _ c bs hBeq
  rw [hB, List.reverse_reverse]

/-- Value of the whitespace-run matcher at a whitespace head. -/
theorem trySpaceRun_pos {c : Char} (cs : List Char) (hsp : isJsSpace c = true) :
    trySpaceRun (c :: cs) = some ([' '], cs.dropWhile isJsSpace) := by
  simp only [trySpaceRun]
  rw [if_pos hsp, List.dropWhile_cons, if_pos hsp]

theorem trySpaceRun_neg {c : Char} (cs : List Char) (hsp : ¬ isJsSpace c = true) :
    trySpaceRun (c :: cs) = none := by
  simp only [trySpaceRun]
  rw [if_neg hsp]

/-- After one whitespace-collapsing pass every whitespace character in the
output is a single space with non-whitespace neighbours; the head is
preserved when it is not whitespace. -/
theorem collapseWs_aux : ∀ (fuel : Nat) (l : List Char), l.length ≤ fuel →
    (∀ c ∈ scanReplace trySpaceRun fuel l, isJsSpace c = true → c = ' ') ∧
      List.Chain' (fun a b => ¬(isJsSpace a = true ∧ isJsSpace b = true))
        (scanReplace trySpaceRun fuel l) ∧
      (∀ c, l.head? = some c → isJsSpace c = false →
        (scanReplace trySpaceRun fuel l).head? = some c) := by
  intro fuel
  induction fuel with
  | zero =>
    intro l hlen
    have hnil : l = [] := List.length_eq_zero.1 (Nat.le_zero.1 hlen)
    subst hnil
    exact ⟨fun c hc => absurd hc (List.not_mem_nil c), List.chain'_nil,
      fun c hc => by simp at hc⟩
  | succ n ih =>
    intro l hlen
    cases l with
    | nil =>
      exact ⟨fun c hc => absurd hc (List.not_mem_nil c), List.chain'_nil,
        fun c hc => by simp at hc⟩
    | cons c cs =>
      by_cases hsp : isJsSpace c = true
      · have hstep : scanReplace trySpaceRun (n + 1) (c :: cs) =
            ' ' :: scanReplace trySpaceRun n (cs.dropWhile isJsSpace) := by
          show (match trySpaceRun (c :: cs) with
            | some (repl, rest) => repl ++ scanReplace trySpaceRun n rest
            | none => c :: scanReplace trySpaceRun n cs) = _
          rw [trySpaceRun_pos cs hsp]
          rfl
        have hrest_len : (cs.dropWhile isJsSpace).length ≤ n :=
          le_trans (List.dropWhile_sublist (p := isJsSpace)).length_le
            (Nat.le_of_succ_le_succ hlen)
        obtain ⟨ih1, ih2, ih3⟩ := ih (cs.dropWhile isJsSpace) hrest_len
        rw [hstep]
        refine ⟨?_, ?_, ?_⟩
        · intro x hx hxsp
          rcases List.mem_cons.1 hx with rfl | hx'
          · rfl
          · exact ih1 x hx' hxsp
        · rw [List.chain'_cons']
          refine ⟨?_, ih2⟩
          intro y hy
          rintro ⟨-, hysp⟩
          rcases hd : cs.dropWhile isJsSpace with _ | ⟨d, ds⟩
          · rw [hd] at hy
            have hempty : scanReplace trySpaceRun n ([] : List Char) = [] := by
              cases n <;> rfl
            rw [hempty] at hy
            simp at hy
          · have hdns : isJsSpace d = false := dropWhile_head_false isJsSpace cs d ds hd
            have hh := ih3 d (by rw [hd]; rfl) hdns
            rw [hh] at hy
            obtain rfl := (by simpa using hy : d = y)
            rw [hysp] at hdns
            exact Bool.noConfusion hdns
        · intro x hx hxsp
          obtain rfl := (by simpa using hx : c = x)
          rw [hxsp] at hsp
          exact absurd hsp (by simp)
      · have hstep : scanReplace trySpaceRun (n + 1) (c :: cs) =
            c :: scanReplace trySpaceRun n cs := by
          show (match trySpaceRun (c :: cs) with
            | some (repl, rest) => repl ++ scanReplace trySpaceRun n rest
            | none => c :: scanReplace trySpaceRun n cs) = _
          rw [trySpaceRun_neg cs hsp]
        obtain ⟨ih1, ih2, ih3⟩ := ih cs (Nat.le_of_succ_le_succ hlen)
        rw [hstep]
        refine ⟨?_, ?_, ?_⟩
        · intro x hx hxsp
          rcases List.mem_cons.1 hx with rfl | hx'
          · exact absurd hxsp (by simp [hsp])
          · exact ih1 x hx' hxsp
        · rw [List.chain'_cons']
          refine ⟨?_, ih2⟩
          intro y hy
          rintro ⟨hcsp, -⟩
          exact hsp hcsp
        · intro x hx hxsp
          obtain rfl := (by simpa using hx : c = x)
          rfl

/-- The output of `collapseWs` is whitespace-normal. -/
theorem collapseWs_normal (u : List Char) :
    (∀ c ∈ collapseWs u, isJsSpace c = true → c = ' ') ∧
      List.Chain' (fun a b => ¬(isJsSpace a = true ∧ isJsSpace b = true))
        (collapseWs u) := by
  obtain ⟨h1, h2, -⟩ := collapseWs_aux u.length u (le_refl _)
  exact ⟨h1, h2⟩

/-- A whitespace-normal string is a fixed point of the collapsing pass. -/
theorem collapseWs_eq_self_aux : ∀ (fuel : Nat) (l : List Char), l.length ≤ fuel →
    (∀ c ∈ l, isJsSpace c = true → c = ' ') →
    List.Chain' (fun a b => ¬(isJsSpace a = true ∧ isJsSpace b = true)) l →
    scanReplace trySpaceRun fuel l = l := by
  intro fuel
  induction fuel with
  | zero =>
    intro l hlen _ _
    have hnil : l = [] := List.length_eq_zero.1 (Nat.le_zero.1 hlen)
    subst hnil
    rfl
  | succ n ih =>
    intro l hlen hblank hchain
    cases l with
    | nil => rfl
    | cons c cs =>
      by_cases hsp : isJsSpace c = true
      · have hc : c = ' ' := hblank c (List.mem_cons_self _ _) hsp
        have hstep : scanReplace trySpaceRun (n + 1) (c :: cs) =
            ' ' :: scanReplace trySpaceRun n (cs.dropWhile isJsSpace) := by
          show (match trySpaceRun (c :: cs) with
            | some (repl, rest) => repl ++ scanReplace trySpaceRun n rest
            | none => c :: scanReplace trySpaceRun n cs) = _
          rw [trySpaceRun_pos cs hsp]
          rfl
        rw [hstep]
        cases cs with
        | nil =>
          have h0 : List.dropWhile isJsSpace ([] : List Char) = [] := rfl
          have h1 : scanReplace trySpaceRun n ([] : List Char) = [] := by
            cases n <;> rfl
          rw [h0, h1, hc]
        | cons d ds =>
          obtain ⟨hpair, hchain'⟩ := List.chain'_cons'.1 hchain
          have hdns : isJsSpace d = false := by
            by_contra hdd
            exact hpair d rfl ⟨hsp, by simpa using hdd⟩
          rw [List.dropWhile_cons, if_neg (by simp [hdns])]
          rw [ih (d :: ds) (Nat.le_of_succ_le_succ hlen)
            (fun x hx => hblank x (List.mem_cons_of_mem _ hx)) hchain']
          rw [hc]
      · have hstep : scanReplace trySpaceRun (n + 1) (c :: cs) =
            c :: scanReplace trySpaceRun n cs := by
          show (match trySpaceRun (c :: cs) with
            | some (repl, rest) => repl ++ scanReplace trySpaceRun n rest
            | none => c :: scanReplace trySpaceRun n cs) = _
          rw [trySpaceRun_neg cs hsp]
        rw [hstep]
        rw [ih cs (Nat.le_of_succ_le_succ hlen)
          (fun x hx => hblank x (List.mem_cons_of_mem _ hx)) (List.Chain'.tail hchain)]

/-- The final stage output `jsTrim (collapseWs u)` is a fixed point of both
`collapseWs` and `jsTrim`. -/
theorem collapse_trim_fix (u : List Char) :
    collapseWs (jsTrim (collapseWs u)) = jsTrim (collapseWs u) ∧
      jsTrim (jsTrim (collapseWs u)) = jsTrim (collapseWs u) := by
  obtain ⟨hb, hch⟩ := collapseWs_normal u
  have hbt : ∀ c ∈ jsTrim (collapseWs u), isJsSpace c = true → c = ' ' :=
    fun c hc => hb c (mem_jsTrim hc)
  have hcht := jsTrim_chain hch
  exact ⟨collapseWs_eq_self_aux _ _ (le_refl _) hbt hcht, jsTrim_idem _⟩

/-- C3 counterexample: the Markup Cleaner is not idempotent.  On the
double-encoded entity `&amp;amp;` one pass yields `&amp;` and a second pass
decodes it further to `&`. -/
theorem cleanHtmlText_not_idempotent :
    cleanHtmlText "&amp;amp;".toList = "&amp;".toList ∧
      cleanHtmlText "&amp;".toList = "&".toList ∧
      cleanHtmlText (cleanHtmlText "&amp;amp;".toList) ≠
        cleanHtmlText "&amp;amp;".toList := by
  refine ⟨by decide, by decide, by decide⟩

/-- C3 (amended): the Markup Cleaner is idempotent on every input whose
cleaned output contains neither `&` nor `<`: on such outputs every tag pass
and entity pass is the identity and the whitespace normalisation is already
a fixed point.  (Outputs containing `&` or `<` — from double-encoded
entities or entity-encoded tags — can be changed by a second pass, as the
counterexample shows.) -/
theorem cleanHtmlText_idempotent_amended (s : List Char)
    (h1 : '&' ∉ cleanHtmlText s) (h2 : '<' ∉ cleanHtmlText s) :
    cleanHtmlText (cleanHtmlText s) = cleanHtmlText s := by
  obtain ⟨u, hu⟩ : ∃ u, cleanHtmlText s = jsTrim (collapseWs u) := ⟨_, rfl⟩
  obtain ⟨hel, hsup, hmath, hspan, himg, hany⟩ := tagSteps_id (cleanHtmlText s) h2
  obtain ⟨hlit, hdec, hhex⟩ := entitySteps_id (cleanHtmlText s) h1
  have e1 : "&nbsp;".toList = '&' :: "nbsp;".toList := rfl
  have e2 : "&amp;".toList = '&' :: "amp;".toList := rfl
  have e3 : "&lt;".toList = '&' :: "lt;".toList := rfl
  have e4 : "&gt;".toList = '&' :: "gt;".toList := rfl
  have e5 : "&quot;".toList = '&' :: "quot;".toList := rfl
  have hmain : cleanHtmlText (cleanHtmlText s) =
      jsTrim (collapseWs (cleanHtmlText s)) := by
    show jsTrim (collapseWs
      (decodeHexEntities (decodeDecEntities
        (replaceLit "&quot;".toList "\"".toList
          (replaceLit "&gt;".toList ">".toList
            (replaceLit "&lt;".toList "<".toList
              (replaceLit "&amp;".toList "&".toList
                (replaceLit "&nbsp;".toList " ".toList
                  (stepScan tryAnyTag
                    (stepScan tryImg
                      (stepScan trySpanTexhtml
                        (stepScan tryMathRemove
                          (stepScan (trySupClass "class=\"noprint\"".toList)
                            (stepScan (trySupClass "class=\"reference\"".toList)
                              (extractLatex (cleanHtmlText s)))))))))))))))) = _
    rw [hel, hsup, hsup, hmath, hspan, himg, hany,
      e1, hlit, e2, hlit, e3, hlit, e4, hlit, e5, hlit, hdec, hhex]
  rw [hmain, hu]
  rw [(collapse_trim_fix u).1, (collapse_trim_fix u).2]

/-- Witness for C3 (amended) at an input with redundant whitespace and no
special characters. -/
theorem cleanHtmlText_idempotent_amended_witness :
    '&' ∉ cleanHtmlText "  hello   world  ".toList ∧
      '<' ∉ cleanHtmlText "  hello   world  ".toList ∧
      cleanHtmlText (cleanHtmlText "  hello   world  ".toList) =
        cleanHtmlText "  hello   world  ".toList :=
  ⟨by decide, by decide,
    cleanHtmlText_idempotent_amended _ (by decide) (by decide)⟩

/-! ### Claim theorems: math content surviving the cleaner -/

/-- The canonical annotated math fragment carrying formula `f` (the shape
of the spec's example). -/
def mathFragment (f : List Char) : List Char :=
  "<math><annotation encoding=\"application/x-tex\">".toList ++ f ++
    "</annotation></math>".toList

/-- Contents of the `$...$` spans of a cleaned text, in order (an
unterminated trailing span is dropped).  This is the measurement function
used to state the claim about math spans in the cleaner's output. -/
def mathSpanAux : List Char → Option (List Char) → List (List Char)
  | [], _ => []
  | c :: cs, none =>
    if c = '$' then mathSpanAux cs (some []) else mathSpanAux cs none
  | c :: cs, some acc =>
    if c = '$' then acc :: mathSpanAux cs none else mathSpanAux cs (some (acc ++ [c]))

def mathSpanContents (l : List Char) : List (List Char) :=
  mathSpanAux l none

/-- C4 counterexample: the formula `a &lt; b &gt; c` decodes to
`a < b > c`; the Math Normalizer places it between `$...$`, but the
cleaner's tag-stripping step then removes `< b >` as if it were a tag, so
the final math span contains `a c` — not the decoded annotation content up
to whitespace collapse. -/
theorem mathSpan_mangled_counterexample :
    cleanHtmlText (mathFragment "a &lt; b &gt; c".toList) = "$a c$".toList ∧
      mathSpanContents (cleanHtmlText (mathFragment "a &lt; b &gt; c".toList)) =
        ["a c".toList] ∧
      jsTrim (decodeLatexEntities "a &lt; b &gt; c".toList) = "a < b > c".toList ∧
      collapseWs "a < b > c".toList = "a < b > c".toList ∧
      "a c".toList ≠ "a < b > c".toList := by
  refine ⟨by decide, by decide, by decide, by decide, by decide⟩

/-- Scanner passes do not depend on the fuel once it covers the input
length, provided every match consumes at least one character. -/
theorem scanReplace_fuel_irrel (f : List Char → Option (List Char × List Char))
    (hcons : ∀ l r, f l = some r → r.2.length < l.length) :
    ∀ (fuel fuel' : Nat) (l : List Char), l.length ≤ fuel → l.length ≤ fuel' →
      scanReplace f fuel l = scanReplace f fuel' l := by
  intro fuel
  induction fuel with
  | zero =>
    intro fuel' l hl _
    have hnil : l = [] := List.length_eq_zero.1 (Nat.le_zero.1 hl)
    subst hnil
    cases fuel' <;> rfl
  | succ n ih =>
    intro fuel' l hl hl'
    cases l with
    | nil => cases fuel' <;> rfl
    | cons c cs =>
      cases fuel' with
      | zero => exact absurd hl' (by simp)
      | succ n' =>
        show (match f (c :: cs) with
          | some (repl, rest) => repl ++ scanReplace f n rest
          | none => c :: scanReplace f n cs) =
          (match f (c :: cs) with
          | some (repl, rest) => repl ++ scanReplace f n' rest
          | none => c :: scanReplace f n' cs)
        rcases hm : f (c :: cs) with _ | ⟨repl, rest⟩
        · exact congrArg (c :: ·)
            (ih n' cs (Nat.le_of_succ_le_succ hl) (Nat.le_of_succ_le_succ hl'))
        · have hr := hcons _ _ hm
          simp only [List.length_cons] at hr hl hl'
          exact congrArg (repl ++ ·) (ih n' rest (by omega) (by omega))

theorem trySpaceRun_consumes (l : List Char) (r : List Char × List Char)
    (h : trySpaceRun l = some r) : r.2.length < l.length := by
  cases l with
  | nil => exact absurd h (by simp [trySpaceRun])
  | cons c cs =>
    by_cases hsp : isJsSpace c = true
    · rw [trySpaceRun_pos cs hsp] at h
      obtain rfl := Option.some.inj h
      show (cs.dropWhile isJsSpace).length < cs.length + 1
      exact Nat.lt_succ_of_le (List.dropWhile_sublist (p := isJsSpace)).length_le
    · rw [trySpaceRun_neg cs hsp] at h
      exact Option.noConfusion h

theorem dropWhile_append_cons (p : Char → Bool) (A : List Char) (b : Char)
    (r : List Char) (hb : p b = false) :
    (A ++ b :: r).dropWhile p = A.dropWhile p ++ b :: r := by
  rw [List.dropWhile_append]
  by_cases h : (A.dropWhile p).isEmpty
  · rw [if_pos h, List.dropWhile_cons, if_neg (by simp [hb])]
    have hA : A.dropWhile p = [] := by simpa [List.isEmpty_iff] using h
    rw [hA]
    rfl
  · rw [if_neg h]

/-- One unfolding step of a scanner pass. -/
theorem scanStep (f : List Char → Option (List Char × List Char)) (n : Nat)
    (c : Char) (cs : List Char) :
    scanReplace f (n + 1) (c :: cs) =
      match f (c :: cs) with
      | some (repl, rest) => repl ++ scanReplace f n rest
      | none => c :: scanReplace f n cs := rfl

theorem scanReplace_nil (f : List Char → Option (List Char × List Char))
    (fuel : Nat) : scanReplace f fuel [] = [] := by cases fuel <;> rfl

/-- The whitespace-collapsing pass distributes over a `$`-boundary (a
whitespace run can never cross the non-whitespace `$`). -/
theorem collapse_append_aux : ∀ (fuel : Nat) (X r : List Char),
    X.length + (1 + r.length) ≤ fuel →
    scanReplace trySpaceRun fuel (X ++ '$' :: r) =
      scanReplace trySpaceRun X.length X ++ '$' :: scanReplace trySpaceRun r.length r := by
  intro fuel
  induction fuel with
  | zero => intro X r h; omega
  | succ n ih =>
    intro X r hlen
    cases X with
    | nil =>
      have hr : r.length ≤ n := by simp only [List.length_nil] at hlen; omega
      rw [List.nil_append, scanStep, trySpaceRun_neg r (by decide),
        scanReplace_fuel_irrel trySpaceRun trySpaceRun_consumes n r.length r hr
          (le_refl _)]
      rfl
    | cons c X' =>
      have hlen' : X'.length + (1 + r.length) ≤ n := by
        simp only [List.length_cons] at hlen
        omega
      by_cases hsp : isJsSpace c = true
      · have hdw : (X'.dropWhile isJsSpace).length ≤ X'.length :=
          (List.dropWhile_sublist (p := isJsSpace)).length_le
        have hih : (X'.dropWhile isJsSpace).length + (1 + r.length) ≤ n := by omega
        have hLHS : scanReplace trySpaceRun (n + 1) ((c :: X') ++ '$' :: r) =
            ' ' :: scanReplace trySpaceRun n (X'.dropWhile isJsSpace ++ '$' :: r) := by
          rw [List.cons_append, scanStep, trySpaceRun_pos _ hsp,
            dropWhile_append_cons isJsSpace X' '$' r (by decide)]
          rfl
        have hRHS : scanReplace trySpaceRun (c :: X').length (c :: X') =
            ' ' :: scanReplace trySpaceRun X'.length (X'.dropWhile isJsSpace) := by
          rw [show (c :: X').length = X'.length + 1 from rfl, scanStep,
            trySpaceRun_pos _ hsp]
          rfl
        rw [hLHS, hRHS, ih (X'.dropWhile isJsSpace) r hih,
          scanReplace_fuel_irrel trySpaceRun trySpaceRun_consumes
            (X'.dropWhile isJsSpace).length X'.length (X'.dropWhile isJsSpace)
            (le_refl _) hdw]
        rfl
      · have hLHS : scanReplace trySpaceRun (n + 1) ((c :: X') ++ '$' :: r) =
            c :: scanReplace trySpaceRun n (X' ++ '$' :: r) := by
          rw [List.cons_append, scanStep, trySpaceRun_neg _ hsp]
        have hRHS : scanReplace trySpaceRun (c :: X').length (c :: X') =
            c :: scanReplace trySpaceRun X'.length X' := by
          rw [show (c :: X').length = X'.length + 1 from rfl, scanStep,
            trySpaceRun_neg _ hsp]
        rw [hLHS, hRHS, ih X' r hlen']
        rfl

theorem ciChar_self (p : Char) : ciChar p p = true := by
  simp [ciChar]

theorem ciStarts_self_append : ∀ (pat r : List Char), ciStarts pat (pat ++ r) = true := by
  intro pat
  induction pat with
  | nil => intro r; rfl
  | cons p ps ih =>
    intro r
    show (ciChar p p && ciStarts ps (ps ++ r)) = true
    rw [ciChar_self, ih, Bool.and_self]

theorem ciChar_lt_false (c : Char) (hc : c ≠ '<') : ciChar '<' c = false := by
  unfold ciChar
  rw [show (decide ('a' ≤ '<')) = false from rfl, Bool.false_and, Bool.false_and,
    Bool.or_false]
  simp [hc]

/-- One unfolding step of `splitAtCi`. -/
theorem splitAtCi_cons (pat : List Char) (c : Char) (cs : List Char) :
    splitAtCi pat (c :: cs) =
      if ciStarts pat (c :: cs) then some ([], (c :: cs).drop pat.length)
      else
        match splitAtCi pat cs with
        | some (pre, rest) => some (c :: pre, rest)
        | none => none := rfl

/-- The earliest occurrence of a `<`-initial pattern after a `<`-free
prefix is the boundary occurrence. -/
theorem splitAtCi_boundary (p' : List Char) :
    ∀ (f r : List Char), '<' ∉ f →
      splitAtCi ('<' :: p') (f ++ (('<' :: p') ++ r)) = some (f, r) := by
  intro f
  induction f with
  | nil =>
    intro r _
    rw [List.nil_append, show ('<' :: p') ++ r = '<' :: (p' ++ r) from rfl,
      splitAtCi_cons, if_pos (by
        rw [show ('<' : Char) :: (p' ++ r) = ('<' :: p') ++ r from rfl]
        exact ciStarts_self_append _ _)]
    rw [show ('<' : Char) :: (p' ++ r) = ('<' :: p') ++ r from rfl,
      List.drop_left]
  | cons a f' ih =>
    intro r hmem
    have ha : a ≠ '<' := fun h => hmem (by rw [h]; exact List.mem_cons_self _ _)
    rw [List.cons_append, splitAtCi_cons, if_neg (by
      show ¬ ((ciChar '<' a && ciStarts p' (f' ++ (('<' :: p') ++ r))) = true)
      rw [ciChar_lt_false a ha, Bool.false_and]
      simp)]
    rw [ih r fun h => hmem (List.mem_cons_of_mem _ h)]

/-- When the matcher fires on the whole input, one pass returns exactly the
replacement. -/
theorem scanReplace_of_match (F : List Char → Option (List Char × List Char))
    (l repl : List Char) (h : F l = some (repl, [])) :
    ∀ fuel, fuel ≠ 0 → l ≠ [] → scanReplace F fuel l = repl := by
  intro fuel hf hl
  cases fuel with
  | zero => exact absurd rfl hf
  | succ n =>
    cases l with
    | nil => exact absurd rfl hl
    | cons c cs =>
      rw [scanStep, h]
      show repl ++ scanReplace F n [] = repl
      rw [scanReplace_nil, List.append_nil]

/-- Value of the `extractLatex` matcher on the canonical annotated
fragment: the capture is exactly the formula when the formula contains no
`<`. -/
theorem tryMathLatex_mathFragment (f : List Char) (hf : '<' ∉ f) :
    tryMathLatex (mathFragment f) =
      some (' ' :: '$' :: (jsTrim (decodeLatexEntities f) ++ ['$', ' ']), []) := by
  have h1 : matchOpenTag "math".toList (mathFragment f) =
      some ([], "<annotation encoding=\"application/x-tex\">".toList ++
        (f ++ "</annotation></math>".toList)) := rfl
  have h2 : findAnnotOpen ("<annotation encoding=\"application/x-tex\">".toList ++
      (f ++ "</annotation></math>".toList)) =
      some (f ++ "</annotation></math>".toList) := rfl
  have h3 : splitAtCi "</annotation>".toList (f ++ "</annotation></math>".toList) =
      some (f, "</math>".toList) := by
    have := splitAtCi_boundary "/annotation>".toList f "</math>".toList hf
    exact this
  have h4 : splitAtCi "</math>".toList "</math>".toList = some ([], []) := rfl
  unfold tryMathLatex
  simp only [h1, h2, h3, h4]

/-- The Math Normalizer on the canonical fragment: the formula is decoded,
trimmed and wrapped as ` $...$ `. -/
theorem extractLatex_mathFragment (f : List Char) (hf : '<' ∉ f) (hamp : '&' ∉ f) :
    extractLatex (mathFragment f) = ' ' :: '$' :: (jsTrim f ++ ['$', ' ']) := by
  have hdec : decodeLatexEntities f = f := by
    obtain ⟨hlit, hdec', hhex⟩ := entitySteps_id f hamp
    unfold decodeLatexEntities
    rw [show "&amp;".toList = '&' :: "amp;".toList from rfl, hlit,
      show "&lt;".toList = '&' :: "lt;".toList from rfl, hlit,
      show "&gt;".toList = '&' :: "gt;".toList from rfl, hlit, hdec', hhex]
  have hcons : mathFragment f = '<' ::
      ("math><annotation encoding=\"application/x-tex\">".toList ++ f ++
        "</annotation></math>".toList) := rfl
  have hne : mathFragment f ≠ [] := by rw [hcons]; exact List.cons_ne_nil _ _
  have hlen : (mathFragment f).length ≠ 0 := by
    rw [hcons]
    simp
  unfold extractLatex
  have hm := tryMathLatex_mathFragment f hf
  rw [hdec] at hm
  exact scanReplace_of_match _ _ _ hm _ hlen hne

theorem mem_scanSpace : ∀ (fuel : Nat) (l : List Char) (c : Char),
    c ∈ scanReplace trySpaceRun fuel l → c = ' ' ∨ c ∈ l := by
  intro fuel
  induction fuel with
  | zero =>
    intro l c hc
    cases l with
    | nil => exact absurd hc (List.not_mem_nil c)
    | cons a as => exact Or.inr hc
  | succ n ih =>
    intro l c hc
    cases l with
    | nil => exact absurd hc (List.not_mem_nil c)
    | cons a as =>
      by_cases hsp : isJsSpace a = true
      · rw [scanStep, trySpaceRun_pos _ hsp] at hc
        have hc' : c ∈ ' ' :: scanReplace trySpaceRun n (as.dropWhile isJsSpace) := hc
        rcases List.mem_cons.1 hc' with rfl | hc''
        · exact Or.inl rfl
        · rcases ih _ c hc'' with h | h
          · exact Or.inl h
          · exact Or.inr (List.mem_cons_of_mem _
              ((List.dropWhile_sublist (p := isJsSpace)).subset h))
      · rw [scanStep, trySpaceRun_neg _ hsp] at hc
        rcases List.mem_cons.1 hc with rfl | hc''
        · exact Or.inr (List.mem_cons_self _ _)
        · rcases ih _ c hc'' with h | h
          · exact Or.inl h
          · exact Or.inr (List.mem_cons_of_mem _ h)

theorem mem_collapseWs {c : Char} {l : List Char} (h : c ∈ collapseWs l) :
    c = ' ' ∨ c ∈ l :=
  mem_scanSpace _ _ _ h

/-- One whitespace-collapsing pass on the wrapped math span: the leading
and trailing single spaces stay, the formula is collapsed, and the `$`
sentinels are untouched. -/
theorem collapseWs_dollar_wrap (X : List Char) :
    collapseWs (' ' :: '$' :: (X ++ ['$', ' '])) =
      ' ' :: '$' :: (collapseWs X ++ ['$', ' ']) := by
  have hwlen : (' ' :: '$' :: (X ++ ['$', ' '])).length = X.length + 4 := by
    simp
  show scanReplace trySpaceRun (' ' :: '$' :: (X ++ ['$', ' '])).length
    (' ' :: '$' :: (X ++ ['$', ' '])) = _
  rw [hwlen]
  rw [show X.length + 4 = (X.length + 3) + 1 from rfl, scanStep,
    trySpaceRun_pos _ (by decide)]
  rw [List.dropWhile_cons, if_neg (by decide)]
  show ' ' :: scanReplace trySpaceRun (X.length + 3) ('$' :: (X ++ ['$', ' '])) = _
  rw [show X.length + 3 = (X.length + 2) + 1 from rfl, scanStep,
    trySpaceRun_neg _ (by decide)]
  rw [show (['$', ' '] : List Char) = '$' :: [' '] from rfl,
    collapse_append_aux (X.length + 2) X [' '] (by simp)]
  rfl

/-- Trimming the wrapped math span removes exactly the two sentinel
spaces. -/
theorem jsTrim_dollar_wrap (Y : List Char) :
    jsTrim (' ' :: '$' :: (Y ++ ['$', ' '])) = '$' :: (Y ++ ['$']) := by
  unfold jsTrim
  rw [List.dropWhile_cons, if_pos (by decide), List.dropWhile_cons,
    if_neg (by decide)]
  have hrev : ('$' :: (Y ++ ['$', ' '])).reverse = ' ' :: '$' :: (Y.reverse ++ ['$']) := by
    rw [List.reverse_cons, List.reverse_append]
    rfl
  rw [hrev, List.dropWhile_cons, if_pos (by decide), List.dropWhile_cons,
    if_neg (by decide)]
  rw [List.reverse_cons, List.reverse_append, List.reverse_reverse]
  rfl

theorem mathSpanAux_boundary : ∀ (Y : List Char), '$' ∉ Y → ∀ (r acc : List Char),
    mathSpanAux (Y ++ '$' :: r) (some acc) = (acc ++ Y) :: mathSpanAux r none := by
  intro Y
  induction Y with
  | nil =>
    intro _ r acc
    rw [List.nil_append]
    show (if '$' = '$' then acc :: mathSpanAux r none
      else mathSpanAux r (some (acc ++ ['$']))) = _
    rw [if_pos rfl, List.append_nil]
  | cons y Y' ih =>
    intro hmem r acc
    have hy : y ≠ '$' := fun h => hmem (by rw [h]; exact List.mem_cons_self _ _)
    rw [List.cons_append]
    show (if y = '$' then acc :: mathSpanAux (Y' ++ '$' :: r) none
      else mathSpanAux (Y' ++ '$' :: r) (some (acc ++ [y]))) = _
    rw [if_neg hy, ih (fun h => hmem (List.mem_cons_of_mem _ h)) r (acc ++ [y]),
      List.append_assoc, List.singleton_append]

/-- C4 (amended): for a formula whose annotation text contains none of
`<`, `&`, `$`, the text placed between the `$...$` delimiters survives the
Markup Cleaner's remaining steps unchanged except for whitespace collapse:
the cleaned output of the canonical annotated fragment is the dollar-
delimited collapse of the trimmed decoded annotation content, and its
single math span's content equals the decoded annotation content up to
whitespace collapse.  (Formulas containing `<`, `>` pairs or entity-encoded
angle brackets are further mangled by tag stripping and entity decoding, as
the counterexample shows.) -/
theorem mathSpan_survival_amended (f : List Char)
    (hf : ∀ c ∈ f, c ≠ '<' ∧ c ≠ '&' ∧ c ≠ '$') :
    cleanHtmlText (mathFragment f) =
        '$' :: (collapseWs (jsTrim (decodeLatexEntities f)) ++ ['$']) ∧
      mathSpanContents (cleanHtmlText (mathFragment f)) =
        [collapseWs (jsTrim (decodeLatexEntities f))] := by
  have hlt : '<' ∉ f := fun h => (hf _ h).1 rfl
  have hamp : '&' ∉ f := fun h => (hf _ h).2.1 rfl
  have hdol : '$' ∉ f := fun h => (hf _ h).2.2 rfl
  have hdec : decodeLatexEntities f = f := by
    obtain ⟨hlit, hdec', hhex⟩ := entitySteps_id f hamp
    unfold decodeLatexEntities
    rw [show "&amp;".toList = '&' :: "amp;".toList from rfl, hlit,
      show "&lt;".toList = '&' :: "lt;".toList from rfl, hlit,
      show "&gt;".toList = '&' :: "gt;".toList from rfl, hlit, hdec', hhex]
  set w : List Char := ' ' :: '$' :: (jsTrim f ++ ['$', ' ']) with hw
  have hltw : '<' ∉ w := by
    intro hmem
    rw [hw] at hmem
    rcases List.mem_cons.1 hmem with h | hmem2
    · exact absurd h (by decide)
    rcases List.mem_cons.1 hmem2 with h | hmem3
    · exact absurd h (by decide)
    rcases List.mem_append.1 hmem3 with h | h
    · exact hlt (mem_jsTrim h)
    · rcases List.mem_cons.1 h with h2 | h2
      · exact absurd h2 (by decide)
      · rcases List.mem_cons.1 h2 with h3 | h3
        · exact absurd h3 (by decide)
        · exact absurd h3 (List.not_mem_nil _)
  have hampw : '&' ∉ w := by
    intro hmem
    rw [hw] at hmem
    rcases List.mem_cons.1 hmem with h | hmem2
    · exact absurd h (by decide)
    rcases List.mem_cons.1 hmem2 with h | hmem3
    · exact absurd h (by decide)
    rcases List.mem_append.1 hmem3 with h | h
    · exact hamp (mem_jsTrim h)
    · rcases List.mem_cons.1 h with h2 | h2
      · exact absurd h2 (by decide)
      · rcases List.mem_cons.1 h2 with h3 | h3
        · exact absurd h3 (by decide)
        · exact absurd h3 (List.not_mem_nil _)
  obtain ⟨-, hsup, hmath, hspan, himg, hany⟩ := tagSteps_id w hltw
  obtain ⟨hlit, hdecE, hhexE⟩ := entitySteps_id w hampw
  have hclean : cleanHtmlText (mathFragment f) = jsTrim (collapseWs w) := by
    show jsTrim (collapseWs
      (decodeHexEntities (decodeDecEntities
        (replaceLit "&quot;".toList "\"".toList
          (replaceLit "&gt;".toList ">".toList
            (replaceLit "&lt;".toList "<".toList
              (replaceLit "&amp;".toList "&".toList
                (replaceLit "&nbsp;".toList " ".toList
                  (stepScan tryAnyTag
                    (stepScan tryImg
                      (stepScan trySpanTexhtml
                        (stepScan tryMathRemove
                          (stepScan (trySupClass "class=\"noprint\"".toList)
                            (stepScan (trySupClass "class=\"reference\"".toList)
                              (extractLatex (mathFragment f)))))))))))))))) = _
    rw [extractLatex_mathFragment f hlt hamp, ← hw, hsup, hsup, hmath, hspan,
      himg, hany,
      show "&nbsp;".toList = '&' :: "nbsp;".toList from rfl, hlit,
      show "&amp;".toList = '&' :: "amp;".toList from rfl, hlit,
      show "&lt;".toList = '&' :: "lt;".toList from rfl, hlit,
      show "&gt;".toList = '&' :: "gt;".toList from rfl, hlit,
      show "&quot;".toList = '&' :: "quot;".toList from rfl, hlit, hdecE, hhexE]
  have hcw : collapseWs w = ' ' :: '$' :: (collapseWs (jsTrim f) ++ ['$', ' ']) := by
    rw [hw]
    exact collapseWs_dollar_wrap (jsTrim f)
  have hfinal : cleanHtmlText (mathFragment f) =
      '$' :: (collapseWs (jsTrim f) ++ ['$']) := by
    rw [hclean, hcw, jsTrim_dollar_wrap]
  have hdolY : '$' ∉ collapseWs (jsTrim f) := by
    intro h
    rcases mem_collapseWs h with h2 | h2
    · exact absurd h2 (by decide)
    · exact hdol (mem_jsTrim h2)
  constructor
  · rw [hfinal, hdec]
  · rw [hfinal, hdec]
    show mathSpanAux ('$' :: (collapseWs (jsTrim f) ++ ['$'])) none =
      [collapseWs (jsTrim f)]
    show (if '$' = '$' then
        mathSpanAux (collapseWs (jsTrim f) ++ ['$']) (some [])
      else mathSpanAux (collapseWs (jsTrim f) ++ ['$']) none) = _
    rw [if_pos rfl,
      show (['$'] : List Char) = '$' :: [] from rfl,
      mathSpanAux_boundary (collapseWs (jsTrim f)) hdolY [] [],
      List.nil_append]
    rfl

/-- Witness for C4 (amended) at the formula `E = m c^2` (internal
whitespace gets collapsed, everything else survives). -/
theorem mathSpan_survival_amended_witness :
    (∀ c ∈ "E =  m c^2".toList, c ≠ '<' ∧ c ≠ '&' ∧ c ≠ '$') ∧
      (cleanHtmlText (mathFragment "E =  m c^2".toList) =
          '$' :: (collapseWs (jsTrim (decodeLatexEntities "E =  m c^2".toList)) ++ ['$']) ∧
        mathSpanContents (cleanHtmlText (mathFragment "E =  m c^2".toList)) =
          [collapseWs (jsTrim (decodeLatexEntities "E =  m c^2".toList))]) :=
  ⟨by decide, mathSpan_survival_amended _ (by decide)⟩

/-! ### C9: section attribution across the sorted boundary walk -/

/-- One step of the section/subsection state over a boundary: a denylisted
boundary leaves the state unchanged (the `continue` fires before the state
update), a level-2 boundary sets the section and clears the subsection, a
level-3 boundary sets the subsection. -/
def stepState (s : List Char × Option (List Char)) (b : Boundary) :
    List Char × Option (List Char) :=
  if skipB b then s
  else if b.level == 2 then (b.title, none)
  else if b.level == 3 then (s.1, some b.title)
  else s

/-- The section/subsection state after processing boundaries `0..i`
inclusive, starting from `s₀`. -/
def stateAt (s₀ : List Char × Option (List Char)) (bs : List Boundary)
    (i : Nat) : List Char × Option (List Char) :=
  (bs.take (i + 1)).foldl stepState s₀

/-- The end offset of boundary `i`'s region: the next boundary's start if
there is one (even a denylisted one), otherwise the document length. -/
def regionEnd (html : List Char) (bs : List Boundary) (i : Nat) : Nat :=
  match (bs.drop (i + 1)).head? with
  | some nb => nb.start
  | none => html.length

/-- Closed form of iteration `i` of the walker loop: no records for a
denylisted boundary, otherwise the filtered records of the region from the
boundary's start to `regionEnd`, tagged with the state after boundary `i`. -/
def closedIter (html category src : List Char)
    (s₀ : List Char × Option (List Char)) (bs : List Boundary) (i : Nat) :
    List Misconception :=
  match bs.get? i with
  | none => []
  | some b =>
    if skipB b then []
    else
      (extractListItems
          ((html.take (regionEnd html bs i)).drop b.start)).filterMap
        (mkRecord category src (stateAt s₀ bs i).1 (stateAt s₀ bs i).2)

/-- The sorted h2/h3 boundary list built by `extractMisconceptions`. -/
def boundariesOf (html : List Char) : List Boundary :=
  sortBoundaries
    (((scanHeadings '2' html.length 0 html).map fun p =>
        { id := p.2.1, title := cleanHtmlText p.2.2, level := 2,
          start := p.1 : Boundary }) ++
      ((scanHeadings '3' html.length 0 html).map fun p =>
        { id := p.2.1, title := cleanHtmlText p.2.2, level := 3,
          start := p.1 : Boundary }))

theorem closedIter_succ (html category src : List Char)
    (s₀ : List Char × Option (List Char)) (b : Boundary)
    (rest : List Boundary) (i : Nat) :
    closedIter html category src s₀ (b :: rest) (i + 1) =
      closedIter html category src (stepState s₀ b) rest i := by
  simp only [closedIter, regionEnd, stateAt, List.get?_cons_succ,
    List.drop_succ_cons, List.take_succ_cons, List.foldl_cons]

theorem processBoundaries_eq_flatMap (html category src : List Char) :
    ∀ (bs : List Boundary) (s₀ : List Char × Option (List Char)),
    processBoundaries html category src s₀.1 s₀.2 bs =
      (List.range bs.length).flatMap (closedIter html category src s₀ bs) := by
  intro bs
  induction bs with
  | nil => intro s₀; rfl
  | cons b rest ih =>
    intro s₀
    have hcons : processBoundaries html category src s₀.1 s₀.2 (b :: rest) =
        if skipB b then processBoundaries html category src s₀.1 s₀.2 rest
        else
          (extractListItems
              ((html.take (match rest.head? with
                | some nb => nb.start
                | none => html.length)).drop b.start)).filterMap
            (mkRecord category src (if b.level == 2 then b.title else s₀.1)
              (if b.level == 2 then none
               else if b.level == 3 then some b.title else s₀.2)) ++
          processBoundaries html category src
            (if b.level == 2 then b.title else s₀.1)
            (if b.level == 2 then none
             else if b.level == 3 then some b.title else s₀.2) rest := rfl
    have hzero : closedIter html category src s₀ (b :: rest) 0 =
        if skipB b then []
        else
          (extractListItems
              ((html.take (regionEnd html (b :: rest) 0)).drop b.start)).filterMap
            (mkRecord category src (stepState s₀ b).1 (stepState s₀ b).2) := rfl
    have hre : regionEnd html (b :: rest) 0 =
        (match rest.head? with
         | some nb => nb.start
         | none => html.length) := rfl
    have hfun : (fun i => closedIter html category src s₀ (b :: rest)
          (Nat.succ i)) =
        closedIter html category src (stepState s₀ b) rest := by
      funext i
      exact closedIter_succ html category src s₀ b rest i
    rw [List.length_cons, List.range_succ_eq_map, List.flatMap_cons,
      List.flatMap_map, hfun, ← ih (stepState s₀ b), hcons, hzero]
    by_cases hskip : skipB b = true
    · rw [if_pos hskip, if_pos hskip]
      have h1 : stepState s₀ b = s₀ := by simp [stepState, hskip]
      rw [h1, List.nil_append]
    · have hskip' : skipB b = false := by
        cases h : skipB b
        · rfl
        · exact absurd h hskip
      have hstep1 : (stepState s₀ b).1 =
          if b.level == 2 then b.title else s₀.1 := by
        by_cases h2 : (b.level == 2) = true <;>
          by_cases h3 : (b.level == 3) = true <;>
            simp [stepState, hskip', h2, h3]
      have hstep2 : (stepState s₀ b).2 =
          if b.level == 2 then none
          else if b.level == 3 then some b.title else s₀.2 := by
        by_cases h2 : (b.level == 2) = true <;>
          by_cases h3 : (b.level == 3) = true <;>
            simp [stepState, hskip', h2, h3]
      rw [if_neg hskip, if_neg hskip, hstep1, hstep2, hre]

theorem foldl_stepState_fst :
    ∀ (L : List Boundary) (s₀ : List Char × Option (List Char)),
    (L.foldl stepState s₀).1 =
      (match L.reverse.find? (fun x => !skipB x && x.level == 2) with
       | some x => x.title
       | none => s₀.1) := by
  intro L
  induction L with
  | nil => intro s₀; rfl
  | cons b L' ih =>
    intro s₀
    rw [List.foldl_cons, ih (stepState s₀ b), List.reverse_cons,
      List.find?_append]
    cases hfind : List.find? (fun x => !skipB x && x.level == 2) L'.reverse with
    | some x => rfl
    | none =>
      by_cases hpb : (!skipB b && b.level == 2) = true
      · have hparts := hpb
        simp only [Bool.and_eq_true, Bool.not_eq_true'] at hparts
        obtain ⟨h1, h2⟩ := hparts
        have hlhs : (stepState s₀ b).1 = b.title := by
          simp [stepState, h1, h2]
        rw [hlhs]
        simp [List.find?_cons, hpb]
      · have hpb' : (!skipB b && b.level == 2) = false := by
          cases h : (!skipB b && b.level == 2)
          · rfl
          · exact absurd h hpb
        have hlhs : (stepState s₀ b).1 = s₀.1 := by
          by_cases hs : skipB b = true
          · simp [stepState, hs]
          · have hs' : skipB b = false := by
              cases h : skipB b
              · rfl
              · exact absurd h hs
            have h2 : (b.level == 2) = false := by
              cases h : (b.level == 2)
              · rfl
              · rw [hs', h] at hpb'
                simp at hpb'
            by_cases h3 : (b.level == 3) = true <;>
              simp [stepState, hs', h2, h3]
        rw [hlhs]
        simp [List.find?_cons, hpb']

/-- A page with a level-2 heading "Alpha", a denylisted level-2 heading
"See_also" (displayed title "See also"), then a level-3 heading "Sub"
carrying a list item. -/
def c9Html : List Char :=
  ("<h2 id=\"Alpha\">Alpha</h2><li>This is a long misconception item one.</li>" ++
   "<h2 id=\"See_also\">See also</h2><h3 id=\"Sub\">Sub</h3>" ++
   "<li>This is a long misconception item two.</li>").toList

set_option maxRecDepth 100000 in
/-- C9, counterexample: on `c9Html` the most recently seen top-level
heading before the level-3 heading "Sub" is the denylisted "See_also"
boundary with title "See also"; yet the record extracted from the "Sub"
region carries section "Alpha".  A denylisted top-level heading does NOT
become the inherited section, because the `continue` fires before the
state update. -/
theorem sectionAttribution_counterexample :
    (boundariesOf c9Html).map (fun b => (b.id, b.title, b.level)) =
      [("Alpha".toList, "Alpha".toList, 2),
       ("See_also".toList, "See also".toList, 2),
       ("Sub".toList, "Sub".toList, 3)] ∧
    "See_also".toList ∈ skipSections ∧
    (extractMisconceptions c9Html "Cat".toList "Page".toList).map
        (fun r => (r.«section», r.subsection)) =
      [("Alpha".toList, none), ("Alpha".toList, some "Sub".toList)] ∧
    "Alpha".toList ≠ "See also".toList := by
  decide

/-- C9, amended: the walker is, iteration by iteration, the closed form
`closedIter`, in which a record extracted from boundary `i` carries as its
section the first component of `stateAt`; and that component is the title
of the most recent NON-denylisted level-2 heading at or before position
`i` (falling back to the initial section, hence to the category inside
`mkRecord`, when there is none).  Denylisted headings do not update the
tracked section, but they still delimit the preceding region through
`regionEnd`. -/
theorem sectionAttribution_amended :
    (∀ (html category pageTitle : List Char),
      extractMisconceptions html category pageTitle =
        (List.range (boundariesOf html).length).flatMap
          (closedIter html category (wikiSource pageTitle) ([], none)
            (boundariesOf html))) ∧
    (∀ (html category src : List Char)
        (s₀ : List Char × Option (List Char)) (bs : List Boundary),
      processBoundaries html category src s₀.1 s₀.2 bs =
        (List.range bs.length).flatMap (closedIter html category src s₀ bs)) ∧
    (∀ (s₀ : List Char × Option (List Char)) (bs : List Boundary) (i : Nat),
      (stateAt s₀ bs i).1 =
        (match (bs.take (i + 1)).reverse.find?
            (fun x => !skipB x && x.level == 2) with
         | some x => x.title
         | none => s₀.1)) := by
  refine ⟨?_, ?_, ?_⟩
  · intro html category pageTitle
    exact processBoundaries_eq_flatMap html category (wikiSource pageTitle)
      (boundariesOf html) ([], none)
  · intro html category src s₀ bs
    exact processBoundaries_eq_flatMap html category src bs s₀
  · intro s₀ bs i
    exact foldl_stepState_fst (bs.take (i + 1)) s₀
